import Mathlib

/-!
Shallow embedding of the Replenishment Planning Engine implemented in
`shopping/02-predict/05_predict_two_dollars_delivery_order.py`, together with
proofs of the testable properties stated for it.

Modelling conventions:
* Calendar dates are integers counting days from a fixed Monday epoch, so a
  date `d` has weekday `d % 7` (Monday = 0 .. Sunday = 6, exactly Python's
  `Timestamp.weekday()`).
* Python floats are modelled as rationals (`ℚ`); the engine only performs
  field arithmetic, `min`/`max`, floors, ceilings and roundings on them.
* Python's `int(x)` truncates toward zero, `math.ceil` is `⌈·⌉`, and
  `round(x)` rounds half to even; each is modelled explicitly below.
* Python dicts that the engine iterates over are modelled as association
  lists (`List (String × _)`), which preserves the insertion-order iteration
  semantics of Python dicts.
-/

namespace Predict

/-- `MIN_ORDER_TOTAL = 50` (Coles minimum order requirement). -/
def MIN_ORDER_TOTAL : ℚ := 50

/-- `DELIVERY_FEE = 2.0` (flat delivery fee per order). -/
def DELIVERY_FEE : ℚ := 2

/-- `ORDERS_PER_WEEK = 2`. -/
def ORDERS_PER_WEEK : ℕ := 2

/-- `ORDER_OFFSETS = [1, 5]` (Tuesday = 1, Saturday = 5; Monday = 0). -/
def ORDER_OFFSETS : List ℤ := [1, 5]

/-- `PREDICTION_WINDOW_DAYS = 30`. -/
def PREDICTION_WINDOW_DAYS : ℤ := 30

/-- Python's `int(x)`: truncation toward zero. -/
def pyInt (x : ℚ) : ℤ := if 0 ≤ x then ⌊x⌋ else ⌈x⌉

/-- Python's built-in `round(x)` on a float: round half to even. -/
def pyRound (x : ℚ) : ℤ :=
  let f := ⌊x⌋
  let r := x - f
  if r < 1 / 2 then f
  else if 1 / 2 < r then f + 1
  else if Even f then f else f + 1

/-!
## Order Calendar Generator (`generate_order_dates`)

The Python loop walks Mondays `week_start + 7*weeks_seen` for
`weeks_seen = 0, 1, ...` and breaks at the first Monday strictly past
`end_date`.  Since `week_start ≤ start_date`, whenever
`start_date ≤ end_date` the loop visits exactly
`(end_date - week_start).toNat / 7 + 1` weeks.
-/

/-- One iteration of the `while True` body of `generate_order_dates`: the
candidate dates `week_start + 7*w + offset` for the configured offsets taken
in order, dropping those outside `[start_date, end_date]`. -/
def cadenceWeek (week_start start_date end_date : ℤ) (w : ℕ) : List ℤ :=
  ((ORDER_OFFSETS.take ORDERS_PER_WEEK).map fun offset =>
      week_start + 7 * (w : ℤ) + offset).filter
    fun order_date => !(decide (order_date < start_date) || decide (order_date > end_date))

/-- `generate_order_dates(start_date, end_date)` from the source. -/
def generate_order_dates (start_date end_date : ℤ) : List ℤ :=
  if start_date > end_date then []
  else
    let week_start := start_date - start_date % 7
    let numWeeks := (end_date - week_start).toNat / 7 + 1
    (List.range numWeeks).flatMap (cadenceWeek week_start start_date end_date)

lemma mem_cadenceWeek {ws s e : ℤ} {w : ℕ} {d : ℤ} (hd : d ∈ cadenceWeek ws s e w) :
    s ≤ d ∧ d ≤ e ∧ (d = ws + 7 * (w : ℤ) + 1 ∨ d = ws + 7 * (w : ℤ) + 5) := by
  simp only [cadenceWeek, ORDER_OFFSETS, ORDERS_PER_WEEK, List.take, List.map,
    List.mem_filter, List.mem_cons, List.not_mem_nil, or_false,
    Bool.not_eq_eq_eq_not, Bool.not_true, Bool.or_eq_false_iff,
    decide_eq_false_iff_not, not_lt] at hd
  obtain ⟨hmem, h1, h2⟩ := hd
  exact ⟨h1, h2, by tauto⟩

lemma cadenceWeek_pairwise (ws s e : ℤ) (w : ℕ) :
    (cadenceWeek ws s e w).Pairwise (· < ·) := by
  apply List.Pairwise.filter
  simp only [ORDER_OFFSETS, ORDERS_PER_WEEK, List.take, List.map]
  refine List.pairwise_cons.2 ⟨?_, ?_⟩
  · intro b hb
    simp only [List.mem_cons, List.not_mem_nil, or_false] at hb
    omega
  · simp

lemma flatMap_range_pairwise {f : ℕ → List ℤ} (hf : ∀ w, (f w).Pairwise (· < ·))
    (hsep : ∀ w w' : ℕ, w < w' → ∀ x ∈ f w, ∀ y ∈ f w', x < y) (n : ℕ) :
    ((List.range n).flatMap f).Pairwise (· < ·) := by
  induction n with
  | zero => simp
  | succ n ih =>
      rw [List.range_succ, List.flatMap_append, List.pairwise_append]
      refine ⟨ih, by simpa using hf n, ?_⟩
      intro x hx y hy
      simp only [List.mem_flatMap, List.mem_range] at hx
      obtain ⟨w, hw, hxw⟩ := hx
      simp only [List.flatMap_cons, List.flatMap_nil, List.append_nil] at hy
      exact hsep w n hw x hxw y hy

lemma generate_order_dates_pairwise (s e : ℤ) :
    (generate_order_dates s e).Pairwise (· < ·) := by
  unfold generate_order_dates
  split
  · simp
  · apply flatMap_range_pairwise (cadenceWeek_pairwise _ s e)
    intro w w' hww x hx y hy
    obtain ⟨-, -, hx'⟩ := mem_cadenceWeek hx
    obtain ⟨-, -, hy'⟩ := mem_cadenceWeek hy
    rcases hx' with hx' | hx' <;> rcases hy' with hy' | hy' <;> omega

/-- **C2.** For `prediction_start ≤ horizon_end` every generated date lies in
the closed window, falls on a cadence weekday (Tuesday = 1 or Saturday = 5,
i.e. `d % 7 ∈ {1, 5}`), and the sequence is strictly ascending with no
duplicates; for `prediction_start > horizon_end` the result is empty. -/
theorem generate_order_dates_spec (start_date end_date : ℤ) :
    (start_date ≤ end_date →
      ∀ d ∈ generate_order_dates start_date end_date,
        start_date ≤ d ∧ d ≤ end_date ∧ (d % 7 = 1 ∨ d % 7 = 5)) ∧
    (generate_order_dates start_date end_date).Pairwise (· < ·) ∧
    (generate_order_dates start_date end_date).Nodup ∧
    (start_date > end_date → generate_order_dates start_date end_date = []) := by
  refine ⟨?_, generate_order_dates_pairwise _ _, ?_, ?_⟩
  · intro _ d hd
    unfold generate_order_dates at hd
    split at hd
    · simp at hd
    · simp only [List.mem_flatMap, List.mem_range] at hd
      obtain ⟨w, -, hdw⟩ := hd
      obtain ⟨h1, h2, h3⟩ := mem_cadenceWeek hdw
      refine ⟨h1, h2, ?_⟩
      rcases h3 with h3 | h3 <;> omega
  · exact (generate_order_dates_pairwise _ _).imp ne_of_lt
  · intro h
    unfold generate_order_dates
    simp [h]

/-- Witness for **C2** at the spec's own scenario: a Tuesday/Saturday cadence
over a 14-day window starting on a Monday (days 0..13) yields exactly the two
Tuesdays and two Saturdays in range. -/
theorem generate_order_dates_spec_witness :
    (0 : ℤ) ≤ 13 ∧ generate_order_dates 0 13 = [1, 5, 8, 12] ∧
      ∀ d ∈ generate_order_dates 0 13,
        0 ≤ d ∧ d ≤ 13 ∧ (d % 7 = 1 ∨ d % 7 = 5) :=
  ⟨by norm_num, by decide,
    fun d hd => (generate_order_dates_spec 0 13).1 (by norm_num) d hd⟩

/-!
## Price Pattern Analyzer (`analyze_price_patterns`)

Python's stable `sorted(history, key=lambda x: x["date"])` is modelled by
insertion sort with `· .date ≤ · .date`, which is a stable sort; every field
computed below depends only on the multiset of entries or on the stably
sorted sequence.  The `best_days`/`best_weeks` fields (weekday names and
week-of-month positions of minimum-price observations) are annotation-only
calendar renderings and are not modelled.
-/

/-- One `(date, price, qty)` observation of `price_history`. -/
structure PriceEntry where
  date : ℤ
  price : ℚ
  qty : ℚ
  deriving Repr, DecidableEq, Inhabited

/-- The per-product record built by `analyze_price_patterns`. -/
structure PromoInfo where
  has_promos : Bool
  min_price : ℚ
  max_price : ℚ
  avg_price : ℚ
  current_price : ℚ
  price_variance_pct : ℚ
  bulk_at_discount : Bool
  savings_per_unit : ℚ
  savings_pct : ℚ
  promo_stock_up : ℚ
  avg_qty : ℚ
  price_count : ℕ
  deriving Repr, DecidableEq, Inhabited

/-- Python's `min` over a list (junk value `default` for `[]`, only applied
to nonempty lists in the source). -/
def qMin {α : Type} [LinearOrder α] [Inhabited α] : List α → α
  | [] => default
  | x :: xs => xs.foldl min x

/-- Python's `max` over a list (junk value `default` for `[]`, only applied
to nonempty lists in the source). -/
def qMax {α : Type} [LinearOrder α] [Inhabited α] : List α → α
  | [] => default
  | x :: xs => xs.foldl max x

/-- `sorted(history, key=lambda x: x["date"])` (stable). -/
def sortByDate (history : List PriceEntry) : List PriceEntry :=
  history.insertionSort (fun a b => a.date ≤ b.date)

/-- The body of the `for product, history in price_history.items()` loop of
`analyze_price_patterns`: `none` when the product has fewer than two
observations. -/
def analyzeOne (history : List PriceEntry) : Option PromoInfo :=
  if history.length < 2 then none
  else
    let hist := sortByDate history
    let prices := hist.map (·.price)
    let quantities := hist.map (·.qty)
    let min_price := qMin prices
    let max_price := qMax prices
    let avg_price := prices.sum / (prices.length : ℚ)
    let current_price := ((hist.getLast?).map (·.price)).getD 0
    let price_range := max_price - min_price
    let price_variance_pct := if avg_price > 0 then price_range / avg_price * 100 else 0
    let sum_qty_at_min := ((hist.filter (fun h => h.price == min_price)).map (·.qty)).sum
    let sum_qty_at_max := ((hist.filter (fun h => h.price == max_price)).map (·.qty)).sum
    let min_count := (hist.filter (fun h => h.price == min_price)).length
    let max_count := (hist.filter (fun h => h.price == max_price)).length
    let avg_qty_at_min := if 0 < min_count then sum_qty_at_min / (min_count : ℚ) else sum_qty_at_min
    let avg_qty_at_max := if 0 < max_count then sum_qty_at_max / (max_count : ℚ) else sum_qty_at_max
    let savings_per_unit := current_price - min_price
    let savings_pct := if current_price > 0 then savings_per_unit / current_price * 100 else 0
    let avg_qty := quantities.sum / (quantities.length : ℚ)
    let max_qty_ordered := qMax quantities
    -- `min(max(int(avg_qty * 2), max_qty_ordered), 6)`; `int` truncates
    let promo_stock_up := min (max ((pyInt (avg_qty * 2) : ℚ)) max_qty_ordered) 6
    some {
      has_promos := decide (price_variance_pct > 10)
      min_price := min_price
      max_price := max_price
      avg_price := avg_price
      current_price := current_price
      price_variance_pct := price_variance_pct
      -- `avg_qty_at_min > avg_qty_at_max * 1.5`
      bulk_at_discount := decide (avg_qty_at_min > avg_qty_at_max * (3 / 2))
      savings_per_unit := savings_per_unit
      savings_pct := savings_pct
      promo_stock_up := promo_stock_up
      avg_qty := avg_qty
      price_count := hist.length
    }

/-- `analyze_price_patterns(price_history)` from the source. -/
def analyze_price_patterns (price_history : List (String × List PriceEntry)) :
    List (String × PromoInfo) :=
  price_history.filterMap fun ph => (analyzeOne ph.2).map (fun pi => (ph.1, pi))

/-- Mean ordered quantity over a product's price-history observations (the
claim's `mean_order_qty`). -/
def meanQty (history : List PriceEntry) : ℚ :=
  (history.map (·.qty)).sum / (history.length : ℚ)

/-- Largest single observed quantity (the claim's `max_ever_ordered`). -/
def maxQtyOf (history : List PriceEntry) : ℚ :=
  qMax (history.map (·.qty))

variable {α : Type} [LinearOrder α] [Inhabited α]

lemma foldl_max_mem (x : α) (xs : List α) : xs.foldl max x ∈ x :: xs := by
  induction xs generalizing x with
  | nil => simp
  | cons y ys ih =>
      rw [List.foldl_cons]
      have h := ih (max x y)
      rcases List.mem_cons.1 h with h' | h'
      · rw [h']
        rcases max_choice x y with hc | hc <;> rw [hc] <;> simp
      · simp [h']

lemma le_foldl_max (x : α) (xs : List α) : ∀ y ∈ x :: xs, y ≤ xs.foldl max x := by
  induction xs generalizing x with
  | nil => simp
  | cons z zs ih =>
      intro y hy
      simp only [List.mem_cons] at hy
      have h1 := ih (max x z)
      rcases hy with rfl | rfl | hy
      · exact le_trans (le_max_left _ _) (h1 _ (List.mem_cons_self _ _))
      · exact le_trans (le_max_right _ _) (h1 _ (List.mem_cons_self _ _))
      · exact h1 y (List.mem_cons_of_mem _ hy)

lemma qMax_mem {l : List α} (h : l ≠ []) : qMax l ∈ l := by
  cases l with
  | nil => exact absurd rfl h
  | cons x xs => exact foldl_max_mem x xs

lemma le_qMax {l : List α} {y : α} (hy : y ∈ l) : y ≤ qMax l := by
  cases l with
  | nil => simp at hy
  | cons x xs => exact le_foldl_max x xs y hy

lemma qMax_perm {l l' : List α} (h : l.Perm l') : qMax l = qMax l' := by
  cases l with
  | nil => rw [← List.perm_nil.1 h.symm]
  | cons x xs =>
      have hne : l' ≠ [] := by
        intro he
        subst he
        exact List.cons_ne_nil x xs (List.perm_nil.1 h)
      exact le_antisymm (le_qMax (h.mem_iff.1 (qMax_mem (by simp))))
        (le_qMax (h.mem_iff.2 (qMax_mem hne)))

/-- **C7 (amended).** For every product with at least two price observations,
the recommended stock-up quantity equals
`min(max(int(2 * mean_order_qty), max_ever_ordered), 6)` where `int`
truncates toward zero (Python's `int()`); in particular it is always at least
the largest historical single order, subject to the cap of 6. -/
theorem analyzeOne_stock_up (history : List PriceEntry) (pi : PromoInfo)
    (h : analyzeOne history = some pi) :
    pi.promo_stock_up
        = min (max ((pyInt (2 * meanQty history) : ℚ)) (maxQtyOf history)) 6 ∧
      min (maxQtyOf history) 6 ≤ pi.promo_stock_up := by
  have hperm : (sortByDate history).Perm history := List.perm_insertionSort _ _
  have hqperm : ((sortByDate history).map (·.qty)).Perm (history.map (·.qty)) :=
    hperm.map _
  have hsum : ((sortByDate history).map (·.qty)).sum = (history.map (·.qty)).sum :=
    hqperm.sum_eq
  have hlen : (sortByDate history).length = history.length := hperm.length_eq
  have hmax : qMax ((sortByDate history).map (·.qty)) = maxQtyOf history :=
    qMax_perm hqperm
  unfold analyzeOne at h
  split at h
  · exact absurd h (by simp)
  · simp only [Option.some.injEq] at h
    subst h
    constructor
    · simp only [meanQty, mul_comm, hmax, List.length_map, hsum, hlen]
    · simp only [hmax]
      exact min_le_min (le_max_right _ _) le_rfl

/-- Witness for **C7 (amended)** at a concrete two-plus-observation history. -/
theorem analyzeOne_stock_up_witness :
    ∃ pi : PromoInfo, analyzeOne [⟨0, 1, 1⟩, ⟨1, 1, 2⟩, ⟨2, 1, 2⟩] = some pi ∧
      pi.promo_stock_up
        = min (max ((pyInt (2 * meanQty [⟨0, 1, 1⟩, ⟨1, 1, 2⟩, ⟨2, 1, 2⟩]) : ℚ))
            (maxQtyOf [⟨0, 1, 1⟩, ⟨1, 1, 2⟩, ⟨2, 1, 2⟩])) 6 ∧
      min (maxQtyOf [⟨0, 1, 1⟩, ⟨1, 1, 2⟩, ⟨2, 1, 2⟩]) 6 ≤ pi.promo_stock_up := by
  refine ⟨_, rfl, ?_, ?_⟩
  · exact (analyzeOne_stock_up [⟨0, 1, 1⟩, ⟨1, 1, 2⟩, ⟨2, 1, 2⟩] _ rfl).1
  · exact (analyzeOne_stock_up [⟨0, 1, 1⟩, ⟨1, 1, 2⟩, ⟨2, 1, 2⟩] _ rfl).2

/-- **C7 counterexample.** For observed quantities `1, 2, 2` the mean is
`5/3`; the code truncates `2 * mean = 10/3` to `3` before taking the max, so
the recommended quantity is `3`, while the claim's untruncated formula gives
`10/3`. -/
theorem analyzeOne_stock_up_counterexample :
    ∃ pi : PromoInfo,
      analyzeOne [⟨0, 1, 1⟩, ⟨1, 1, 2⟩, ⟨2, 1, 2⟩] = some pi ∧
      pi.promo_stock_up = 3 ∧
      min (max (2 * meanQty [⟨0, 1, 1⟩, ⟨1, 1, 2⟩, ⟨2, 1, 2⟩])
            (maxQtyOf [⟨0, 1, 1⟩, ⟨1, 1, 2⟩, ⟨2, 1, 2⟩])) 6 = 10 / 3 ∧
      (3 : ℚ) ≠ 10 / 3 := by
  refine ⟨_, rfl, ?_, ?_, by norm_num⟩
  · have hfloor : ⌊(5 : ℚ) / 3 * 2⌋ = 3 := by
      rw [Int.floor_eq_iff]
      norm_num
    simp only [analyzeOne, sortByDate, List.insertionSort, List.orderedInsert,
      pyInt, qMax, qMin, meanQty, maxQtyOf]
    norm_num [hfloor]
  · have : meanQty [⟨0, 1, 1⟩, ⟨1, 1, 2⟩, ⟨2, 1, 2⟩] = 5 / 3 := by
      simp only [meanQty, List.map, List.sum_cons, List.sum_nil, List.length_cons,
        List.length_nil]
      norm_num
    rw [this]
    have : maxQtyOf [⟨0, 1, 1⟩, ⟨1, 1, 2⟩, ⟨2, 1, 2⟩] = 2 := by
      simp only [maxQtyOf, qMax, List.map, List.foldl]
      norm_num
    rw [this]
    norm_num

lemma foldl_min_le (x : α) (xs : List α) : ∀ y ∈ x :: xs, xs.foldl min x ≤ y := by
  induction xs generalizing x with
  | nil => simp
  | cons z zs ih =>
      intro y hy
      simp only [List.mem_cons] at hy
      have h1 := ih (min x z)
      rcases hy with rfl | rfl | hy
      · exact le_trans (h1 _ (List.mem_cons_self _ _)) (min_le_left _ _)
      · exact le_trans (h1 _ (List.mem_cons_self _ _)) (min_le_right _ _)
      · exact h1 y (List.mem_cons_of_mem _ hy)

lemma qMin_le {l : List α} {y : α} (hy : y ∈ l) : qMin l ≤ y := by
  cases l with
  | nil => simp at hy
  | cons x xs => exact foldl_min_le x xs y hy

/-!
## Consumption Rate Estimator (`compute_product_stats`)

`df_grouped` is modelled as an association list sending each product to its
grouped rows (one summed quantity per date), in first-appearance order; this
matches iterating `df_grouped["product"].unique()`.  The fuzzy name matcher
`match_product_to_stock(product, in_stock_dict)` is abstracted by a function
`in_stock : String → Option ℚ` giving the snapshot quantity it would return.
The unused `last_invoice_date` parameter of the Python function is omitted.
`best_days`/`best_weeks`/price pass-through annotation fields are omitted
from `ProductStats`; they are copied verbatim from `PromoInfo` and only read
by the printer. -/

/-- One row of `df_grouped` for one product: the summed quantity `y` ordered
on date `ds`. -/
structure OrderRow where
  date : ℤ
  qty : ℚ
  deriving Repr, DecidableEq, Inhabited

/-- The per-product record built by `compute_product_stats`. -/
structure ProductStats where
  daily_rate : ℚ
  weekly_need : ℚ
  avg_interval : Option ℚ
  avg_qty_per_order : ℚ
  frequent : Bool
  max_per_order : ℚ
  unit_price : ℚ
  estimated_stock : ℚ
  days_until_empty : ℚ
  order_count : ℕ
  last_order_date : ℤ
  last_order_qty : ℚ
  days_since_last_order : ℤ
  stock_source : String
  has_promos : Bool
  promo_stock_up : ℚ
  deriving Repr, DecidableEq, Inhabited

/-- `product_df.sort_values("ds")` (stable). -/
def sortRows (rows : List OrderRow) : List OrderRow :=
  rows.insertionSort (fun a b => a.date ≤ b.date)

/-- `product_df["y"].sum()`. -/
def totalQty (rows : List OrderRow) : ℚ := (rows.map (·.qty)).sum

/-- Consecutive differences, i.e. `product_df["ds"].diff()` with the leading
`NaN` dropped (as `.mean()` skips it). -/
def dateDiffs : List ℤ → List ℤ
  | [] => []
  | [_] => []
  | a :: b :: rest => (b - a) :: dateDiffs (b :: rest)

/-- `product_df["interval"].mean()`: `none` models the `NaN` mean of an
empty/all-`NaN` interval column. -/
def avgIntervalOf (rows : List OrderRow) : Option ℚ :=
  let diffs := dateDiffs ((sortRows rows).map (·.date))
  if diffs.isEmpty then none
  else some (((diffs.map (fun d => (d : ℚ))).sum) / (diffs.length : ℚ))

/-- The consumption-rate computation of `compute_product_stats` (total-period
model with its same-day and single-order fallbacks). -/
def dailyRateOf (oldest_invoice_date : ℤ) (rows : List OrderRow) : ℚ :=
  let total_qty := totalQty rows
  let dates := rows.map (·.date)
  let first_date := qMin dates
  let last_date := qMax dates
  let order_count := rows.length
  let avg_qty_per_order := total_qty / (order_count : ℚ)
  if 2 ≤ order_count then
    let total_consumption_period := last_date - first_date
    if 0 < total_consumption_period then total_qty / (total_consumption_period : ℚ)
    else
      match avgIntervalOf rows with
      | some ai => if 0 < ai then avg_qty_per_order / ai else avg_qty_per_order / 7
      | none => avg_qty_per_order / 7
  else
    let total_consumption_period := last_date - oldest_invoice_date
    if 0 < total_consumption_period then total_qty / (total_consumption_period : ℚ)
    else total_qty / 7

/-- `product_df[product_df["ds"] == last_date]["y"].sum()`. -/
def lastOrderQty (rows : List OrderRow) : ℚ :=
  ((rows.filter (fun r => r.date == qMax (rows.map (·.date)))).map (·.qty)).sum

/-- The stock-estimation step: snapshot projection when the fuzzy matcher
found a quantity and a snapshot date exists, otherwise the last-order
depletion model.  Returns the estimate and the `stock_source` tag. -/
def estimatedStockOf (daily_rate : ℚ) (prediction_start : ℤ)
    (last_date : ℤ) (last_order_qty : ℚ)
    (actual_stock : Option ℚ) (stock_date : Option ℤ) : ℚ × String :=
  match actual_stock, stock_date with
  | some actual, some sd =>
      let days_since_stock_date := prediction_start - sd
      (max 0 (actual - daily_rate * (days_since_stock_date : ℚ)), "actual")
  | _, _ =>
      let days_since_last_order := prediction_start - last_date
      (max 0 (last_order_qty - daily_rate * (days_since_last_order : ℚ)), "estimated")

/-- The body of the per-product loop of `compute_product_stats`: `none` when
the product is filtered out (no measurable demand, free item, or stale
one-off purchase).  `days_until_empty` is `float('inf')` in Python when
`daily_rate ≤ 0`; that branch is unreachable for retained products (proved in
`compute_product_stats_invariants`) and is modelled by the junk value `0`. -/
def computeOne (oldest_invoice_date prediction_start : ℤ) (unit_price : ℚ)
    (pinfo : Option PromoInfo) (actual_stock : Option ℚ) (stock_date : Option ℤ)
    (rows : List OrderRow) : Option ProductStats :=
  if totalQty rows ≤ 0 then none
  else if unit_price = 0 then none
  else
    let last_date := qMax (rows.map (·.date))
    let days_since_last_order := prediction_start - last_date
    if rows.length < 2 ∧ 30 < days_since_last_order then none
    else
      let order_count := rows.length
      let avg_qty_per_order := totalQty rows / (order_count : ℚ)
      let avg_interval := avgIntervalOf rows
      let daily_rate := dailyRateOf oldest_invoice_date rows
      let weekly_need := daily_rate * 7
      let frequent : Bool :=
        (decide (3 ≤ order_count) &&
          (match avg_interval with
           | some ai => decide (ai ≤ 14)
           | none => false)) || decide ((1 : ℚ) / 2 ≤ weekly_need)
      let mpo0 : ℤ := max 1 ⌈avg_qty_per_order⌉
      let has_promos := match pinfo with | some pi => pi.has_promos | none => false
      let promo_stock_up : ℚ :=
        match pinfo with | some pi => pi.promo_stock_up | none => (mpo0 : ℚ)
      let max_per_order : ℚ :=
        if has_promos then max (mpo0 : ℚ) promo_stock_up else (mpo0 : ℚ)
      let es := estimatedStockOf daily_rate prediction_start last_date
        (lastOrderQty rows) actual_stock stock_date
      some {
        daily_rate := daily_rate
        weekly_need := weekly_need
        avg_interval := avg_interval
        avg_qty_per_order := avg_qty_per_order
        frequent := frequent
        max_per_order := max_per_order
        unit_price := unit_price
        estimated_stock := es.1
        days_until_empty := if 0 < daily_rate then es.1 / daily_rate else 0
        order_count := order_count
        last_order_date := last_date
        last_order_qty := lastOrderQty rows
        days_since_last_order := days_since_last_order
        stock_source := es.2
        has_promos := has_promos
        promo_stock_up := promo_stock_up
      }

/-- `compute_product_stats` from the source: iterate the grouped products,
keeping those `computeOne` retains. -/
def compute_product_stats (df_grouped : List (String × List OrderRow))
    (product_prices : String → Option ℚ) (prediction_start : ℤ)
    (promo_info : List (String × PromoInfo))
    (in_stock : String → Option ℚ) (stock_date : Option ℤ) :
    List (String × ProductStats) :=
  let oldest_invoice_date := qMin (df_grouped.flatMap (fun pr => pr.2.map (·.date)))
  df_grouped.filterMap fun pr =>
    (computeOne oldest_invoice_date prediction_start ((product_prices pr.1).getD 0)
        (promo_info.lookup pr.1) (in_stock pr.1) stock_date pr.2).map (fun s => (pr.1, s))

lemma totalQty_pos_ne_nil {rows : List OrderRow} (h : 0 < totalQty rows) : rows ≠ [] := by
  intro he
  subst he
  simp [totalQty] at h

lemma dailyRateOf_pos (oldest : ℤ) {rows : List OrderRow}
    (hq : 0 < totalQty rows) :
    0 < dailyRateOf oldest rows := by
  have hne : rows ≠ [] := totalQty_pos_ne_nil hq
  have hcount : 0 < (rows.length : ℚ) := by
    have : 0 < rows.length := List.length_pos.2 hne
    exact_mod_cast this
  have havg : 0 < totalQty rows / (rows.length : ℚ) := div_pos hq hcount
  unfold dailyRateOf
  dsimp only
  split
  · split
    · rename_i hper
      exact div_pos hq (by exact_mod_cast hper)
    · split
      · split
        · rename_i hai
          exact div_pos havg hai
        · exact div_pos havg (by norm_num)
      · exact div_pos havg (by norm_num)
  · split
    · rename_i hper
      exact div_pos hq (by exact_mod_cast hper)
    · exact div_pos hq (by norm_num)

lemma estimatedStockOf_nonneg (daily_rate : ℚ) (prediction_start last_date : ℤ)
    (last_order_qty : ℚ) (actual_stock : Option ℚ) (stock_date : Option ℤ) :
    0 ≤ (estimatedStockOf daily_rate prediction_start last_date last_order_qty
      actual_stock stock_date).1 := by
  unfold estimatedStockOf
  rcases actual_stock with - | a <;> rcases stock_date with - | sd <;> simp

lemma computeOne_invariants {oldest prediction_start : ℤ} {unit_price : ℚ}
    {pinfo : Option PromoInfo} {actual_stock : Option ℚ} {stock_date : Option ℤ}
    {rows : List OrderRow} {s : ProductStats}
    (h : computeOne oldest prediction_start unit_price pinfo actual_stock stock_date rows
      = some s) :
    0 < s.daily_rate ∧ 0 ≤ s.estimated_stock ∧
      s.days_until_empty = s.estimated_stock / s.daily_rate ∧
      s.weekly_need = s.daily_rate * 7 := by
  unfold computeOne at h
  split at h
  · exact absurd h (by simp)
  · split at h
    · exact absurd h (by simp)
    · dsimp only at h
      by_cases hg : rows.length < 2 ∧ 30 < prediction_start - qMax (rows.map (·.date))
      · rw [if_pos hg] at h
        exact absurd h (by simp)
      · rw [if_neg hg] at h
        rename_i hq _
        have hq' : 0 < totalQty rows := lt_of_not_le hq
        have hrate := dailyRateOf_pos oldest hq'
        simp only [Option.some.injEq] at h
        subst h
        refine ⟨hrate, estimatedStockOf_nonneg _ _ _ _ _ _, ?_, rfl⟩
        simp [hrate]

/-- **C1.** Every product retained in the `ProductStats` map produced by
`compute_product_stats` satisfies `daily_rate > 0`, `estimated_stock ≥ 0`,
`days_until_empty = estimated_stock / daily_rate`, and
`weekly_need = daily_rate * 7` — for any grouped order history, prices,
`prediction_start`, promo info and optional stock snapshot. -/
theorem compute_product_stats_invariants
    (df_grouped : List (String × List OrderRow))
    (product_prices : String → Option ℚ) (prediction_start : ℤ)
    (promo_info : List (String × PromoInfo))
    (in_stock : String → Option ℚ) (stock_date : Option ℤ)
    (p : String) (s : ProductStats)
    (hmem : (p, s) ∈ compute_product_stats df_grouped product_prices prediction_start
      promo_info in_stock stock_date) :
    0 < s.daily_rate ∧ 0 ≤ s.estimated_stock ∧
      s.days_until_empty = s.estimated_stock / s.daily_rate ∧
      s.weekly_need = s.daily_rate * 7 := by
  unfold compute_product_stats at hmem
  simp only [List.mem_filterMap, Option.map_eq_some'] at hmem
  obtain ⟨pr, hpr, s', hs', heq⟩ := hmem
  have hs2 : s' = s := congrArg Prod.snd heq
  subst hs2
  exact computeOne_invariants hs'

/-- Witness for **C1**: a single product ordered once (7 units on day 0),
priced, with `prediction_start = 15`, is retained and satisfies all four
invariants. -/
theorem compute_product_stats_invariants_witness :
    ∃ s : ProductStats,
      ("p", s) ∈ compute_product_stats [("p", [⟨0, 7⟩])]
          (fun q => if q = "p" then some 2 else none) 15 [] (fun _ => none) none ∧
      0 < s.daily_rate ∧ 0 ≤ s.estimated_stock ∧
        s.days_until_empty = s.estimated_stock / s.daily_rate ∧
        s.weekly_need = s.daily_rate * 7 := by
  have hcomp : ∃ s, computeOne 0 15 2 none none none [⟨0, 7⟩] = some s := by
    unfold computeOne
    rw [if_neg (by norm_num [totalQty] : ¬(totalQty [⟨0, 7⟩] ≤ 0)),
      if_neg (by norm_num : ¬((2 : ℚ) = 0))]
    dsimp only
    rw [if_neg (by norm_num [qMax] :
      ¬(([(⟨0, 7⟩ : OrderRow)] : List OrderRow).length < 2 ∧
        30 < 15 - qMax (([(⟨0, 7⟩ : OrderRow)] : List OrderRow).map (·.date))))]
    exact ⟨_, rfl⟩
  obtain ⟨s, hs⟩ := hcomp
  have hmem : ("p", s) ∈ compute_product_stats [("p", [⟨0, 7⟩])]
      (fun q => if q = "p" then some 2 else none) 15 [] (fun _ => none) none := by
    unfold compute_product_stats
    simp only [List.flatMap, List.map, List.foldl, qMin, List.lookup, List.filterMap,
      Option.getD, List.append, List.append_nil]
    norm_num
    rw [hs]
    simp
  exact ⟨s, hmem, compute_product_stats_invariants _ _ _ _ _ _ "p" s hmem⟩

/-!
### The spec's two-order scenario (C8)

A single product ordered twice, 10 units then 10 units, 10 days apart, at
price $2/unit, with `prediction_start` 5 days after the last order.  The
total-period model computes `daily_rate = total_qty / span = 20 / 10 = 2`,
and `estimated_stock = max(0, 10 - 2 * 5) = 0`.
-/

lemma c8_dailyRate : dailyRateOf 0 [⟨0, 10⟩, ⟨10, 10⟩] = 2 := by
  unfold dailyRateOf
  dsimp only
  norm_num [totalQty, qMax, qMin, List.foldl]

lemma c8_qMaxDate : qMax (([⟨0, 10⟩, ⟨10, 10⟩] : List OrderRow).map (·.date)) = 10 := by
  norm_num [qMax, List.foldl]

lemma c8_lastQty : lastOrderQty [⟨0, 10⟩, ⟨10, 10⟩] = 10 := by
  unfold lastOrderQty
  rw [c8_qMaxDate]
  simp +decide [List.filter]

lemma c8_stock : (estimatedStockOf 2 15 10 10 none none).1 = 0 := by
  unfold estimatedStockOf
  norm_num

lemma c8_computeOne :
    ∃ s, computeOne 0 15 2 none none none [⟨0, 10⟩, ⟨10, 10⟩] = some s ∧
      s.daily_rate = 2 ∧ s.estimated_stock = 0 := by
  unfold computeOne
  rw [if_neg (by norm_num [totalQty] : ¬(totalQty [⟨0, 10⟩, ⟨10, 10⟩] ≤ 0)),
    if_neg (by norm_num : ¬((2 : ℚ) = 0))]
  dsimp only
  rw [if_neg (by norm_num :
    ¬(([(⟨0, 10⟩ : OrderRow), ⟨10, 10⟩] : List OrderRow).length < 2 ∧
      30 < 15 - qMax (([(⟨0, 10⟩ : OrderRow), ⟨10, 10⟩] : List OrderRow).map (·.date))))]
  refine ⟨_, rfl, ?_, ?_⟩
  · exact c8_dailyRate
  · show (estimatedStockOf (dailyRateOf 0 _) 15 (qMax _) (lastOrderQty _) none none).1 = 0
    rw [c8_dailyRate, c8_qMaxDate, c8_lastQty]
    exact c8_stock

lemma c8_mem {s : ProductStats}
    (hs : computeOne 0 15 2 none none none [⟨0, 10⟩, ⟨10, 10⟩] = some s) :
    ("p", s) ∈ compute_product_stats [("p", [⟨0, 10⟩, ⟨10, 10⟩])]
      (fun q => if q = "p" then some 2 else none) 15 [] (fun _ => none) none := by
  unfold compute_product_stats
  simp only [List.flatMap, List.map, List.foldl, qMin, List.lookup, List.filterMap,
    Option.getD, List.append, List.append_nil]
  norm_num
  rw [hs]
  simp

/-- **C8 counterexample.** In the spec's scenario (10 units on day 0 and 10
units on day 10 at $2/unit, `prediction_start = 15`), the retained product's
`daily_rate` is exactly `2`, not approximately `1.0`, and its
`estimated_stock` is exactly `0`, not approximately `5`. -/
theorem c8_scenario_counterexample :
    ∃ s : ProductStats,
      ("p", s) ∈ compute_product_stats [("p", [⟨0, 10⟩, ⟨10, 10⟩])]
          (fun q => if q = "p" then some 2 else none) 15 [] (fun _ => none) none ∧
      s.daily_rate = 2 ∧ s.daily_rate ≠ 1 ∧
      s.estimated_stock = 0 ∧ s.estimated_stock ≠ 5 := by
  obtain ⟨s, hs, hr, hst⟩ := c8_computeOne
  exact ⟨s, c8_mem hs, hr, by rw [hr]; norm_num, hst, by rw [hst]; norm_num⟩

/-- **C8 (amended).** In the spec's scenario the total-period model yields
`daily_rate = total_quantity / span = 20 / 10 = 2` units/day, and with
`prediction_start` 5 days after the last order,
`estimated_stock = max(0, 10 - 2 * 5) = 0`. -/
theorem c8_scenario :
    ∃ s : ProductStats,
      ("p", s) ∈ compute_product_stats [("p", [⟨0, 10⟩, ⟨10, 10⟩])]
          (fun q => if q = "p" then some 2 else none) 15 [] (fun _ => none) none ∧
      s.daily_rate = 2 ∧ s.estimated_stock = 0 := by
  obtain ⟨s, hs, hr, hst⟩ := c8_computeOne
  exact ⟨s, c8_mem hs, hr, hst⟩

/-!
## Orders and items

Python order dicts start as `{"date", "items", "notes"}`; the keys
`items_total`, `total_with_delivery`, `meets_minimum` (added by
`enforce_minimums`) and `skipped` (added by `consolidate_small_orders`,
`order.get("skipped")` being falsy before) are modelled as fields that are
`0`/`false` until those stages set them.  Item `qty` is an integer in Python
for built items, but `min(max_per_order, ...)` propagates the possibly
fractional `max_per_order`, so `qty` is modelled as `ℚ` like every other
numeric value. -/

structure Item where
  product : String
  qty : ℚ
  unit_price : ℚ
  total_price : ℚ
  max_per_order : ℚ
  stock_before : ℚ
  need_until_next : ℚ
  topped_up : Bool
  deriving Repr, DecidableEq, Inhabited

structure Order where
  date : ℤ
  items : List Item
  notes : List String
  items_total : ℚ
  total_with_delivery : ℚ
  meets_minimum : Bool
  skipped : Bool
  deriving Repr, DecidableEq, Inhabited

/-- `sum(item["total_price"] for item in order["items"])`. -/
def itemsTotal (items : List Item) : ℚ := (items.map (·.total_price)).sum

/-!
## Minimal-Stock Order Builder (`build_minimal_orders`)
-/

/-- `round(x, 1)`: Python's one-decimal rounding (half to even), used only
for the `stock_before`/`need_until_next` annotations. -/
def round1 (x : ℚ) : ℚ := (pyRound (x * 10) : ℚ) / 10

/-- Days from this order to the next one in the walk (3-day buffer after the
final order date). -/
def daysUntilNext (o : Order) : List Order → ℤ
  | [] => 3
  | o2 :: _ => o2.date - o.date

/-- The inner date-walk of `build_minimal_orders` for one product: consume
stock since the previous touch point, and when the remaining stock will not
cover consumption until the next order date, emit a line (typical batch
size, `max_per_order` when the shortfall exceeds it, always within
`[1, max_per_order]`) and credit it back into the running stock. -/
def placeProduct (product : String) (s : ProductStats) :
    ℤ → ℚ → List Order → List Order
  | _, _, [] => []
  | last_order_date, current_stock, o :: rest =>
      let days_elapsed := o.date - last_order_date
      let stock1 := current_stock - s.daily_rate * (days_elapsed : ℚ)
      let needed_for_period := s.daily_rate * ((daysUntilNext o rest : ℤ) : ℚ)
      if stock1 < needed_for_period then
        let shortfall := needed_for_period - stock1
        let qty_to_order :=
          if s.avg_qty_per_order < shortfall then s.max_per_order
          else max 1 ((pyRound s.avg_qty_per_order : ℤ) : ℚ)
        let qty_to_order := min s.max_per_order qty_to_order
        let item : Item := {
          product := product
          qty := qty_to_order
          unit_price := s.unit_price
          total_price := qty_to_order * s.unit_price
          max_per_order := s.max_per_order
          stock_before := round1 (max 0 stock1)
          need_until_next := round1 needed_for_period
          topped_up := false
        }
        { o with items := o.items ++ [item] } ::
          placeProduct product s o.date (stock1 + qty_to_order) rest
      else
        o :: placeProduct product s o.date stock1 rest

/-- `sorted(product_stats.items(), key=lambda x: (x[1]["days_until_empty"],
-x[1]["weekly_need"]))` — stable ascending sort on the lexicographic key. -/
def sortByUrgency (stats : List (String × ProductStats)) :
    List (String × ProductStats) :=
  stats.insertionSort (fun a b =>
    a.2.days_until_empty < b.2.days_until_empty ∨
      (a.2.days_until_empty = b.2.days_until_empty ∧ b.2.weekly_need ≤ a.2.weekly_need))

/-- `build_minimal_orders(product_stats, order_dates, start_date)`. -/
def build_minimal_orders (product_stats : List (String × ProductStats))
    (order_dates : List ℤ) (start_date : ℤ) : List Order :=
  let orders : List Order := order_dates.map fun d =>
    { date := d, items := [], notes := [], items_total := 0,
      total_with_delivery := 0, meets_minimum := false, skipped := false }
  (sortByUrgency product_stats).foldl (fun orders ps =>
    if ps.2.daily_rate ≤ 0 then orders
    else if ps.2.weekly_need < 1 / 4 then orders
    else placeProduct ps.1 ps.2 start_date ps.2.estimated_stock orders) orders

/-- **C6 (amended).** At every order date of the walk at which the running
stock (after consumption) is below the consumption needed before the next
scheduled date, the builder emits exactly one order line for the product
whose quantity satisfies `1 ≤ qty ≤ max_per_order` (provided the cap is at
least one, as `compute_product_stats` guarantees), and credits `qty` back
into the running stock for the rest of the walk.  The quantity is the
shortfall-dependent batch size truncated to the cap: it need not reach the
shortfall itself. -/
theorem placeProduct_step (product : String) (s : ProductStats)
    (last_order_date : ℤ) (current_stock : ℚ) (o : Order) (rest : List Order)
    (hcap : 1 ≤ s.max_per_order)
    (hshort : current_stock - s.daily_rate * ((o.date - last_order_date : ℤ) : ℚ)
        < s.daily_rate * ((daysUntilNext o rest : ℤ) : ℚ)) :
    ∃ qty : ℚ, 1 ≤ qty ∧ qty ≤ s.max_per_order ∧
      placeProduct product s last_order_date current_stock (o :: rest) =
        { o with items := o.items ++ [{
            product := product
            qty := qty
            unit_price := s.unit_price
            total_price := qty * s.unit_price
            max_per_order := s.max_per_order
            stock_before := round1 (max 0
              (current_stock - s.daily_rate * ((o.date - last_order_date : ℤ) : ℚ)))
            need_until_next := round1 (s.daily_rate * ((daysUntilNext o rest : ℤ) : ℚ))
            topped_up := false }] } ::
          placeProduct product s o.date
            ((current_stock - s.daily_rate * ((o.date - last_order_date : ℤ) : ℚ)) + qty)
            rest := by
  refine ⟨min s.max_per_order
    (if s.avg_qty_per_order
        < s.daily_rate * ((daysUntilNext o rest : ℤ) : ℚ)
          - (current_stock - s.daily_rate * ((o.date - last_order_date : ℤ) : ℚ))
      then s.max_per_order
      else max 1 ((pyRound s.avg_qty_per_order : ℤ) : ℚ)), ?_, ?_, ?_⟩
  · apply le_min hcap
    split
    · exact hcap
    · exact le_max_left _ _
  · exact min_le_left _ _
  · rw [placeProduct, if_pos hshort]

lemma pyRound_intCast (n : ℤ) : pyRound ((n : ℤ) : ℚ) = n := by
  unfold pyRound
  rw [Int.floor_intCast]
  norm_num

lemma round1_zero : round1 0 = 0 := by
  unfold round1
  rw [show ((0 : ℚ) * 10) = ((0 : ℤ) : ℚ) by norm_num, pyRound_intCast]
  norm_num

lemma round1_ten : round1 10 = 10 := by
  unfold round1
  rw [show ((10 : ℚ) * 10) = ((100 : ℤ) : ℚ) by norm_num, pyRound_intCast]
  norm_num

/-- **C6 counterexample.** A product with daily rate 1, cap 1 and no stock,
walked over order dates 0 and 10: at date 0 the stock on hand (0) is 10
units short of the consumption needed before the next date
(`need_until_next = 10`, `stock_before = 0`), yet the emitted line has
`qty = 1 < 10`; the quantity is capped at `max_per_order` and does not cover
the shortfall. -/
theorem build_minimal_orders_counterexample :
    ∃ it : Item,
      ((build_minimal_orders
          [("a", ⟨1, 7, none, 1, true, 1, 1, 0, 0, 3, 0, 1, 0, "estimated", false, 1⟩)]
          [0, 10] 0).headD default).items = [it] ∧
      it.qty = 1 ∧ it.stock_before = 0 ∧ it.need_until_next = 10 ∧
      it.qty < it.need_until_next - it.stock_before := by
  refine ⟨⟨"a", 1, 1, 1, 1, 0, 10, false⟩, ?_, by norm_num, by norm_num, by norm_num,
    by norm_num⟩
  norm_num [build_minimal_orders, sortByUrgency, List.insertionSort, List.orderedInsert,
    placeProduct, daysUntilNext, round1_zero, round1_ten]

/-- Witness for **C6 (amended)**: a concrete walk state (cap 1, daily rate
1, empty stock, next order 10 days away) where the order branch fires. -/
theorem placeProduct_step_witness :
    ∃ qty : ℚ, 1 ≤ qty ∧
      qty ≤ (⟨1, 7, none, 1, true, 1, 1, 0, 0, 3, 0, 1, 0, "estimated", false, 1⟩
        : ProductStats).max_per_order := by
  obtain ⟨qty, h1, h2, -⟩ := placeProduct_step "a"
    ⟨1, 7, none, 1, true, 1, 1, 0, 0, 3, 0, 1, 0, "estimated", false, 1⟩ 0 0
    ⟨0, [], [], 0, 0, false, false⟩ [⟨10, [], [], 0, 0, false, false⟩]
    (by norm_num) (by norm_num [daysUntilNext])
  exact ⟨qty, h1, h2⟩

/-!
## Minimum-Order Enforcer (`enforce_minimums`)

The `while items_total > 0 and items_total < MIN_ORDER_TOTAL` loop is
modelled as a step function plus a fuelled iterator; `enforceFuel` fuel
provably suffices (`enforceLoop_stable`), which is the termination argument
of the loop.  Items whose product is missing from `product_stats` would
raise `KeyError` in Python when tested as increment candidates; the
pipeline only builds items for products of the stats map, and the model
treats such items as ineligible. -/

/-- A top-up increment candidate: `item["qty"] <
product_stats[item["product"]]["max_per_order"] and item["unit_price"] > 0`. -/
def eligible (stats : List (String × ProductStats)) (it : Item) : Bool :=
  match stats.lookup it.product with
  | some s => decide (it.qty < s.max_per_order) && decide (0 < it.unit_price)
  | none => false

/-- Python's `max(xs, key=f)` keeps the first element among ties: fold that
replaces the current best only on a strictly larger key. -/
def pyMaxBy {β : Type} (f : β → ℚ) (a : β) (l : List β) : β :=
  l.foldl (fun best c => if f best < f c then c else best) a

/-- Index into `items` of the candidate chosen by
`max(candidates, key=lambda x: x["unit_price"])`. -/
def selectCandidate (stats : List (String × ProductStats)) (items : List Item) :
    Option ℕ :=
  match (List.range items.length).filter
      (fun k => eligible stats (items.getD k default)) with
  | [] => none
  | k :: ks => some (pyMaxBy (fun k => (items.getD k default).unit_price) k ks)

/-- The entry chosen from the frequent products not yet in the order:
`sort(key=lambda x: -x[1]["unit_price"])` is stable, so element `[0]` is the
first entry attaining the maximal unit price. -/
def selectNew (stats : List (String × ProductStats)) (items : List Item) :
    Option (String × ProductStats) :=
  let existing := items.map (·.product)
  match stats.filter (fun ps =>
      !(decide (ps.1 ∈ existing)) && decide (0 < ps.2.unit_price) && ps.2.frequent) with
  | [] => none
  | c :: cs => some (pyMaxBy (fun ps => ps.2.unit_price) c cs)

/-- The item appended by the top-up branch of `enforce_minimums`. -/
def newTopUpItem (p : String) (s : ProductStats) : Item :=
  { product := p, qty := 1, unit_price := s.unit_price, total_price := s.unit_price,
    max_per_order := s.max_per_order, stock_before := 0, need_until_next := 0,
    topped_up := true }

/-- The single-unit increment applied to the chosen candidate. -/
def bumpItem (it : Item) : Item :=
  { it with qty := it.qty + 1, total_price := (it.qty + 1) * it.unit_price }

/-- One iteration of the `while` body of `enforce_minimums`; `none` models
the `break` (no increment candidate and no frequent product to add). -/
def enforceStep (stats : List (String × ProductStats)) (items : List Item) :
    Option (List Item) :=
  match selectCandidate stats items with
  | some k => some (items.set k (bumpItem (items.getD k default)))
  | none =>
      match selectNew stats items with
      | some (p, s) => some (items ++ [newTopUpItem p s])
      | none => none

/-- The fuelled `while items_total > 0 and items_total < MIN_ORDER_TOTAL`
loop (`items_total` is recomputed after every change in the source, so the
guard always sees the current sum). -/
def enforceLoop (stats : List (String × ProductStats)) : ℕ → List Item → List Item
  | 0, items => items
  | n + 1, items =>
      if 0 < itemsTotal items ∧ itemsTotal items < MIN_ORDER_TOTAL then
        match enforceStep stats items with
        | some items' => enforceLoop stats n items'
        | none => items
      else items

/-- Single-unit increments still available to an item below its cap. -/
def slack (stats : List (String × ProductStats)) (it : Item) : ℕ :=
  match stats.lookup it.product with
  | some s => (⌈s.max_per_order - it.qty⌉).toNat
  | none => 0

/-- Termination measure of the top-up loop: increments available on the
current items, plus the weight of stats products not yet in the order. -/
def enforceFuel (stats : List (String × ProductStats)) (items : List Item) : ℕ :=
  ((items.map (slack stats)).sum) +
    (((stats.filter
        (fun ps => !(decide (ps.1 ∈ items.map (·.product))))).map
      (fun ps => (⌈ps.2.max_per_order - 1⌉).toNat + 1)).sum)

/-- `enforce_minimums` applied to one order: run the loop, then store the
recomputed totals and the `meets_minimum` flag. -/
def enforceOrder (stats : List (String × ProductStats)) (o : Order) : Order :=
  let items' := enforceLoop stats (enforceFuel stats o.items + 1) o.items
  let t := itemsTotal items'
  { o with
    items := items'
    items_total := t
    total_with_delivery := if 0 < t then t + DELIVERY_FEE else 0
    meets_minimum := decide (MIN_ORDER_TOTAL ≤ t) }

/-- `enforce_minimums(orders, product_stats)` from the source (the in-place
mutation of each order is modelled functionally). -/
def enforce_minimums (orders : List Order)
    (stats : List (String × ProductStats)) : List Order :=
  orders.map (enforceOrder stats)

lemma pyMaxBy_cons {β : Type} (f : β → ℚ) (a c : β) (cs : List β) :
    pyMaxBy f a (c :: cs) = pyMaxBy f (if f a < f c then c else a) cs := rfl

lemma pyMaxBy_mem {β : Type} (f : β → ℚ) (a : β) (l : List β) :
    pyMaxBy f a l ∈ a :: l := by
  induction l generalizing a with
  | nil => simp [pyMaxBy]
  | cons c cs ih =>
      rw [pyMaxBy_cons]
      have h := ih (if f a < f c then c else a)
      rcases List.mem_cons.1 h with h' | h'
      · rw [h']
        split <;> simp
      · simp [List.mem_cons_of_mem, h']

lemma pyMaxBy_le {β : Type} (f : β → ℚ) (a : β) (l : List β) :
    ∀ x ∈ a :: l, f x ≤ f (pyMaxBy f a l) := by
  induction l generalizing a with
  | nil =>
      intro x hx
      simp only [List.mem_singleton] at hx
      simp [pyMaxBy, hx]
  | cons c cs ih =>
      intro x hx
      rw [pyMaxBy_cons]
      have hbase := ih (if f a < f c then c else a)
      rcases List.mem_cons.1 hx with rfl | hx'
      · refine le_trans ?_ (hbase _ (List.mem_cons_self _ _))
        split
        · exact le_of_lt ‹_›
        · exact le_refl _
      · rcases List.mem_cons.1 hx' with rfl | hx''
        · refine le_trans ?_ (hbase _ (List.mem_cons_self _ _))
          split
          · exact le_refl _
          · exact le_of_not_lt ‹_›
        · exact hbase x (List.mem_cons_of_mem _ hx'')

lemma selectCandidate_none {stats : List (String × ProductStats)} {items : List Item}
    (h : selectCandidate stats items = none) :
    ∀ j < items.length, ¬(eligible stats (items.getD j default) = true) := by
  intro j hj he
  unfold selectCandidate at h
  rcases hf : (List.range items.length).filter
      (fun k => eligible stats (items.getD k default)) with - | ⟨k, ks⟩
  · have hjf : j ∈ (List.range items.length).filter
        (fun k => eligible stats (items.getD k default)) :=
      List.mem_filter.2 ⟨List.mem_range.2 hj, he⟩
    rw [hf] at hjf
    simp at hjf
  · rw [hf] at h
    simp at h

lemma selectCandidate_some {stats : List (String × ProductStats)} {items : List Item}
    {k : ℕ} (h : selectCandidate stats items = some k) :
    k < items.length ∧ eligible stats (items.getD k default) = true ∧
      ∀ j < items.length, eligible stats (items.getD j default) = true →
        (items.getD j default).unit_price ≤ (items.getD k default).unit_price := by
  unfold selectCandidate at h
  rcases hf : (List.range items.length).filter
      (fun k => eligible stats (items.getD k default)) with - | ⟨k0, ks⟩
  · rw [hf] at h
    simp at h
  · rw [hf] at h
    simp only [Option.some.injEq] at h
    subst h
    have hmem : pyMaxBy (fun k => (items.getD k default).unit_price) k0 ks
        ∈ (List.range items.length).filter
          (fun k => eligible stats (items.getD k default)) := by
      rw [hf]
      exact pyMaxBy_mem _ _ _
    have h1 := List.mem_filter.1 hmem
    refine ⟨List.mem_range.1 h1.1, by simpa using h1.2, ?_⟩
    intro j hj hel
    have hjf : j ∈ (List.range items.length).filter
        (fun k => eligible stats (items.getD k default)) :=
      List.mem_filter.2 ⟨List.mem_range.2 hj, hel⟩
    rw [hf] at hjf
    exact pyMaxBy_le (fun k => (items.getD k default).unit_price) k0 ks j hjf

lemma selectNew_none {stats : List (String × ProductStats)} {items : List Item}
    (h : selectNew stats items = none) (ps : String × ProductStats) (hps : ps ∈ stats)
    (hnotin : ps.1 ∉ items.map (·.product)) (hprice : 0 < ps.2.unit_price)
    (hfreq : ps.2.frequent = true) : False := by
  unfold selectNew at h
  dsimp only at h
  rcases hf : stats.filter (fun ps =>
      !(decide (ps.1 ∈ items.map (·.product))) && decide (0 < ps.2.unit_price)
        && ps.2.frequent) with - | ⟨c, cs⟩
  · have hpf : ps ∈ stats.filter (fun ps =>
        !(decide (ps.1 ∈ items.map (·.product))) && decide (0 < ps.2.unit_price)
          && ps.2.frequent) := by
      refine List.mem_filter.2 ⟨hps, ?_⟩
      simp [hnotin, hprice, hfreq]
    rw [hf] at hpf
    simp at hpf
  · rw [hf] at h
    simp at h

lemma selectNew_some {stats : List (String × ProductStats)} {items : List Item}
    {p : String} {s : ProductStats} (h : selectNew stats items = some (p, s)) :
    (p, s) ∈ stats ∧ p ∉ items.map (·.product) ∧ 0 < s.unit_price ∧
      s.frequent = true ∧
      ∀ qs ∈ stats, qs.1 ∉ items.map (·.product) → 0 < qs.2.unit_price →
        qs.2.frequent = true → qs.2.unit_price ≤ s.unit_price := by
  unfold selectNew at h
  dsimp only at h
  rcases hf : stats.filter (fun ps =>
      !(decide (ps.1 ∈ items.map (·.product))) && decide (0 < ps.2.unit_price)
        && ps.2.frequent) with - | ⟨c, cs⟩
  · rw [hf] at h
    simp at h
  · rw [hf] at h
    simp only [Option.some.injEq] at h
    have hmem : pyMaxBy (fun ps => ps.2.unit_price) c cs ∈ stats.filter (fun ps =>
        !(decide (ps.1 ∈ items.map (·.product))) && decide (0 < ps.2.unit_price)
          && ps.2.frequent) := by
      rw [hf]
      exact pyMaxBy_mem _ _ _
    have h1 := List.mem_filter.1 hmem
    have h2 := h1.2
    simp only [Bool.and_eq_true, Bool.not_eq_eq_eq_not, Bool.not_true,
      decide_eq_false_iff_not, decide_eq_true_eq] at h2
    rw [h] at h1 h2
    refine ⟨h1.1, h2.1.1, h2.1.2, h2.2, ?_⟩
    intro qs hqs hnot hpr hfr
    have hqf : qs ∈ stats.filter (fun ps =>
        !(decide (ps.1 ∈ items.map (·.product))) && decide (0 < ps.2.unit_price)
          && ps.2.frequent) := by
      refine List.mem_filter.2 ⟨hqs, ?_⟩
      simp [hnot, hpr, hfr]
    rw [hf] at hqf
    have := pyMaxBy_le (fun ps => ps.2.unit_price) c cs qs hqf
    rw [h] at this
    exact this

lemma map_sum_set {l : List Item} {k : ℕ} (hk : k < l.length) (x : Item)
    (f : Item → ℕ) :
    ((l.set k x).map f).sum + f (l.getD k default) = (l.map f).sum + f x := by
  induction l generalizing k with
  | nil => simp at hk
  | cons a as ih =>
      cases k with
      | zero =>
          simp only [List.set, List.map_cons, List.sum_cons, List.getD_cons_zero]
          omega
      | succ k' =>
          simp only [List.set, List.map_cons, List.sum_cons, List.getD_cons_succ]
          have := ih (Nat.lt_of_succ_lt_succ hk)
          omega

lemma map_product_set {l : List Item} {k : ℕ} {x : Item}
    (hx : x.product = (l.getD k default).product) :
    (l.set k x).map (·.product) = l.map (·.product) := by
  induction l generalizing k with
  | nil => simp
  | cons a as ih =>
      cases k with
      | zero =>
          simp only [List.getD_cons_zero] at hx
          simp [List.set, hx]
      | succ k' =>
          simp only [List.getD_cons_succ] at hx
          simp [List.set, ih hx]

lemma bumpItem_product (it : Item) : (bumpItem it).product = it.product := rfl

lemma slack_bump {stats : List (String × ProductStats)} {it : Item}
    (he : eligible stats it = true) :
    slack stats (bumpItem it) + 1 = slack stats it := by
  unfold eligible at he
  unfold slack
  rw [bumpItem_product]
  rcases hl : stats.lookup it.product with - | s
  · rw [hl] at he
    simp at he
  · rw [hl] at he
    simp only [Bool.and_eq_true, decide_eq_true_eq] at he
    obtain ⟨hqty, -⟩ := he
    show (⌈s.max_per_order - (bumpItem it).qty⌉).toNat + 1
      = (⌈s.max_per_order - it.qty⌉).toNat
    have hq : (bumpItem it).qty = it.qty + 1 := rfl
    rw [hq, show s.max_per_order - (it.qty + 1) = (s.max_per_order - it.qty) - 1 by ring,
      Int.ceil_sub_one]
    have h2 : 0 < ⌈s.max_per_order - it.qty⌉ := Int.ceil_pos.2 (by linarith)
    omega

lemma enforceFuel_set_lt {stats : List (String × ProductStats)} {items : List Item}
    {k : ℕ} (hk : k < items.length)
    (he : eligible stats (items.getD k default) = true) :
    enforceFuel stats (items.set k (bumpItem (items.getD k default)))
      < enforceFuel stats items := by
  unfold enforceFuel
  rw [map_product_set (bumpItem_product _)]
  have hsum := map_sum_set hk (bumpItem (items.getD k default)) (slack stats)
  have hslack := slack_bump he
  omega

lemma lookup_of_mem {p : String} {s : ProductStats}
    {stats : List (String × ProductStats)} (h : (p, s) ∈ stats) :
    ∃ s₁, stats.lookup p = some s₁ := by
  induction stats with
  | nil => simp at h
  | cons e es ih =>
      rcases e with ⟨e1, e2⟩
      by_cases hpe : p = e1
      · exact ⟨e2, by simp [List.lookup, hpe]⟩
      · have hb : (p == e1) = false := beq_eq_false_iff_ne.2 hpe
        rcases List.mem_cons.1 h with heq | h'
        · exact absurd (congrArg Prod.fst heq) hpe
        · obtain ⟨s₁, hs₁⟩ := ih h'
          exact ⟨s₁, by simp [List.lookup, hb, hs₁]⟩

lemma sum_filter_mono (P Q : String × ProductStats → Bool)
    (w : String × ProductStats → ℕ)
    (himp : ∀ e, Q e = true → P e = true) (l : List (String × ProductStats)) :
    ((l.filter Q).map w).sum ≤ ((l.filter P).map w).sum := by
  induction l with
  | nil => simp
  | cons e es ih =>
      by_cases hq : Q e = true
      · rw [List.filter_cons_of_pos hq, List.filter_cons_of_pos (himp e hq)]
        simp only [List.map_cons, List.sum_cons]
        omega
      · rw [List.filter_cons_of_neg (by simpa using hq)]
        by_cases hp : P e = true
        · rw [List.filter_cons_of_pos hp]
          simp only [List.map_cons, List.sum_cons]
          omega
        · rw [List.filter_cons_of_neg (by simpa using hp)]
          exact ih

lemma filter_weight_drop {stats : List (String × ProductStats)} {p : String}
    {s₁ : ProductStats} {prods : List String}
    (hl : stats.lookup p = some s₁) (hnot : p ∉ prods) :
    ((stats.filter (fun ps => !(decide (ps.1 ∈ prods ++ [p])))).map
        (fun ps => (⌈ps.2.max_per_order - 1⌉).toNat + 1)).sum
      + ((⌈s₁.max_per_order - 1⌉).toNat + 1)
    ≤ ((stats.filter (fun ps => !(decide (ps.1 ∈ prods)))).map
        (fun ps => (⌈ps.2.max_per_order - 1⌉).toNat + 1)).sum := by
  induction stats with
  | nil => simp [List.lookup] at hl
  | cons e es ih =>
      rcases e with ⟨e1, e2⟩
      by_cases hpe : p = e1
      · subst hpe
        have hs : e2 = s₁ := by
          have h0 : List.lookup p ((p, e2) :: es) = some e2 := by
            simp [List.lookup]
          rw [h0] at hl
          exact Option.some.inj hl
        subst hs
        rw [List.filter_cons_of_neg (by simp),
          List.filter_cons_of_pos (by simp [hnot])]
        simp only [List.map_cons, List.sum_cons]
        have hmono := sum_filter_mono
          (fun ps => !(decide (ps.1 ∈ prods)))
          (fun ps => !(decide (ps.1 ∈ prods ++ [p])))
          (fun ps => (⌈ps.2.max_per_order - 1⌉).toNat + 1)
          (fun e h => by
            simp only [Bool.not_eq_eq_eq_not, Bool.not_true,
              decide_eq_false_iff_not] at h ⊢
            intro hm
            exact h (List.mem_append_left _ hm)) es
        omega
      · have hl' : es.lookup p = some s₁ := by
          have hb : (p == e1) = false := beq_eq_false_iff_ne.2 hpe
          simpa [List.lookup, hb] using hl
        have ihx := ih hl'
        by_cases hin : e1 ∈ prods
        · rw [List.filter_cons_of_neg (by simp [hin]),
            List.filter_cons_of_neg (by simp [hin])]
          exact ihx
        · have hin' : e1 ∉ prods ++ [p] := by
            simp only [List.mem_append, List.mem_singleton]
            rintro (hm | hm)
            · exact hin hm
            · exact hpe hm.symm
          rw [List.filter_cons_of_pos (by simp [hin']),
            List.filter_cons_of_pos (by simp [hin])]
          simp only [List.map_cons, List.sum_cons]
          omega

lemma enforceFuel_append_lt {stats : List (String × ProductStats)}
    {items : List Item} {p : String} {s : ProductStats}
    (hmem : (p, s) ∈ stats) (hnot : p ∉ items.map (·.product)) :
    enforceFuel stats (items ++ [newTopUpItem p s]) < enforceFuel stats items := by
  obtain ⟨s₁, hs₁⟩ := lookup_of_mem hmem
  unfold enforceFuel
  have hprod : (items ++ [newTopUpItem p s]).map (·.product)
      = items.map (·.product) ++ [p] := by
    simp [newTopUpItem]
  rw [hprod]
  have hslacknew : slack stats (newTopUpItem p s) = (⌈s₁.max_per_order - 1⌉).toNat := by
    unfold slack
    rw [show (newTopUpItem p s).product = p from rfl, hs₁]
    norm_num [newTopUpItem]
  have hfirst : ((items ++ [newTopUpItem p s]).map (slack stats)).sum
      = (items.map (slack stats)).sum + slack stats (newTopUpItem p s) := by
    simp
  have hdrop := filter_weight_drop hs₁ hnot
  rw [hfirst, hslacknew]
  omega

lemma enforceStep_fuel {stats : List (String × ProductStats)} {items items' : List Item}
    (h : enforceStep stats items = some items') :
    enforceFuel stats items' < enforceFuel stats items := by
  unfold enforceStep at h
  rcases hc : selectCandidate stats items with - | k
  · rw [hc] at h
    rcases hn : selectNew stats items with - | ⟨p, s⟩
    · rw [hn] at h
      simp at h
    · rw [hn] at h
      simp only [Option.some.injEq] at h
      subst h
      obtain ⟨hmem, hnot, -, -, -⟩ := selectNew_some hn
      exact enforceFuel_append_lt hmem hnot
  · rw [hc] at h
    simp only [Option.some.injEq] at h
    subst h
    obtain ⟨hk, he, -⟩ := selectCandidate_some hc
    exact enforceFuel_set_lt hk he

lemma enforceLoop_succ (stats : List (String × ProductStats)) (n : ℕ)
    (items : List Item) :
    enforceLoop stats (n + 1) items =
      if 0 < itemsTotal items ∧ itemsTotal items < MIN_ORDER_TOTAL then
        match enforceStep stats items with
        | some items' => enforceLoop stats n items'
        | none => items
      else items := rfl

lemma enforceLoop_not_guard (stats : List (String × ProductStats))
    {items : List Item}
    (hg : ¬(0 < itemsTotal items ∧ itemsTotal items < MIN_ORDER_TOTAL)) :
    ∀ n, enforceLoop stats n items = items := by
  intro n
  cases n with
  | zero => rfl
  | succ n => rw [enforceLoop_succ, if_neg hg]

lemma enforceLoop_stable (stats : List (String × ProductStats)) :
    ∀ (n m : ℕ) (items : List Item), enforceFuel stats items < n → n ≤ m →
      enforceLoop stats m items = enforceLoop stats n items := by
  intro n
  induction n with
  | zero =>
      intro m items h _
      exact absurd h (Nat.not_lt_zero _)
  | succ n ih =>
      intro m items hfuel hnm
      obtain ⟨m', rfl⟩ : ∃ m', m = m' + 1 := ⟨m - 1, by omega⟩
      rw [enforceLoop_succ, enforceLoop_succ]
      by_cases hg : 0 < itemsTotal items ∧ itemsTotal items < MIN_ORDER_TOTAL
      · rw [if_pos hg, if_pos hg]
        rcases hs : enforceStep stats items with - | items'
        · rfl
        · have hlt := enforceStep_fuel hs
          exact ih m' items' (by omega) (by omega)
      · rw [if_neg hg, if_neg hg]

lemma enforceLoop_final (stats : List (String × ProductStats)) :
    ∀ (n : ℕ) (items : List Item), enforceFuel stats items < n →
      ¬(0 < itemsTotal (enforceLoop stats n items) ∧
          itemsTotal (enforceLoop stats n items) < MIN_ORDER_TOTAL) ∨
        enforceStep stats (enforceLoop stats n items) = none := by
  intro n
  induction n with
  | zero =>
      intro items h
      exact absurd h (Nat.not_lt_zero _)
  | succ n ih =>
      intro items hfuel
      rw [enforceLoop_succ]
      by_cases hg : 0 < itemsTotal items ∧ itemsTotal items < MIN_ORDER_TOTAL
      · rw [if_pos hg]
        rcases hs : enforceStep stats items with - | items'
        · exact Or.inr hs
        · have hlt := enforceStep_fuel hs
          exact ih items' (by omega)
      · rw [if_neg hg]
        exact Or.inl hg

lemma enforceOrder_idem (stats : List (String × ProductStats)) (o : Order) :
    enforceOrder stats (enforceOrder stats o) = enforceOrder stats o := by
  have hfin := enforceLoop_final stats (enforceFuel stats o.items + 1) o.items
    (Nat.lt_succ_self _)
  unfold enforceOrder
  dsimp only
  have hitems : enforceLoop stats
      (enforceFuel stats (enforceLoop stats (enforceFuel stats o.items + 1) o.items) + 1)
      (enforceLoop stats (enforceFuel stats o.items + 1) o.items)
      = enforceLoop stats (enforceFuel stats o.items + 1) o.items := by
    rcases hfin with hng | hstep
    · exact enforceLoop_not_guard stats hng _
    · by_cases hg : 0 < itemsTotal (enforceLoop stats (enforceFuel stats o.items + 1) o.items)
          ∧ itemsTotal (enforceLoop stats (enforceFuel stats o.items + 1) o.items)
            < MIN_ORDER_TOTAL
      · rw [enforceLoop_succ, if_pos hg, hstep]
      · exact enforceLoop_not_guard stats hg _
  rw [hitems]

/-- **C5.** The Minimum-Order Enforcer is idempotent: applying
`enforce_minimums` twice yields exactly the same orders (items, quantities,
totals, `meets_minimum`) as applying it once — for every order list and
product-stats map. -/
theorem enforce_minimums_idem (orders : List Order)
    (stats : List (String × ProductStats)) :
    enforce_minimums (enforce_minimums orders stats) stats
      = enforce_minimums orders stats := by
  unfold enforce_minimums
  induction orders with
  | nil => rfl
  | cons o os ih =>
      simp only [List.map_cons, enforceOrder_idem, List.map_map] at ih ⊢
      rw [ih]

/-- **C9.** The top-up loop of `enforce_minimums` terminates: every
iteration either increments an item strictly below its `max_per_order` cap
or adds a stats product not yet in the order, and `enforceFuel` (available
increments plus weight of addable products) strictly decreases at each step.
Consequently, past `enforceFuel + 1` iterations the fuelled loop never
changes again — the bound `enforce_minimums` runs with computes the loop's
fixpoint, so the enforcer is a total function of its inputs. -/
theorem enforce_minimums_terminates (stats : List (String × ProductStats))
    (items : List Item) (m : ℕ) (hm : enforceFuel stats items + 1 ≤ m) :
    enforceLoop stats m items
      = enforceLoop stats (enforceFuel stats items + 1) items :=
  enforceLoop_stable stats (enforceFuel stats items + 1) m items
    (Nat.lt_succ_self _) hm

/-- Witness for **C9** at a concrete input. -/
theorem enforce_minimums_terminates_witness :
    enforceFuel [] [] + 1 ≤ 5 ∧
      enforceLoop [] 5 [] = enforceLoop [] (enforceFuel [] [] + 1) [] :=
  ⟨by norm_num [enforceFuel], enforce_minimums_terminates [] [] 5
    (by norm_num [enforceFuel])⟩

/-- **C4 (amended).** While an order's `items_total` is strictly positive
and below `minimum_order_value` (the source's guard is `items_total > 0`,
not "has at least one item"), one loop iteration of the enforcer: (a) if
some included item is below its cap with positive unit price, increments by
one unit an included item of maximal unit price among those; (b) otherwise,
if some frequent positively-priced stats product is absent from the order,
appends one unit of such a product of maximal unit price, marked
`topped_up`; (c) if neither exists, the loop stops, leaving the order's
items unchanged and `meets_minimum = false`, raising no failure. -/
theorem enforce_minimums_step_policy (stats : List (String × ProductStats))
    (o : Order) (h1 : 0 < itemsTotal o.items)
    (h2 : itemsTotal o.items < MIN_ORDER_TOTAL) :
    ((∃ j, j < o.items.length ∧ eligible stats (o.items.getD j default) = true) →
      ∃ k, k < o.items.length ∧ eligible stats (o.items.getD k default) = true ∧
        (∀ j, j < o.items.length → eligible stats (o.items.getD j default) = true →
          (o.items.getD j default).unit_price ≤ (o.items.getD k default).unit_price) ∧
        enforceStep stats o.items
          = some (o.items.set k (bumpItem (o.items.getD k default)))) ∧
    ((∀ j, j < o.items.length → ¬(eligible stats (o.items.getD j default) = true)) →
      (∃ ps, ps ∈ stats ∧ ps.1 ∉ o.items.map (·.product) ∧ 0 < ps.2.unit_price ∧
        ps.2.frequent = true) →
      ∃ p s, (p, s) ∈ stats ∧ p ∉ o.items.map (·.product) ∧ 0 < s.unit_price ∧
        s.frequent = true ∧ (newTopUpItem p s).topped_up = true ∧
        (∀ qs, qs ∈ stats → qs.1 ∉ o.items.map (·.product) → 0 < qs.2.unit_price →
          qs.2.frequent = true → qs.2.unit_price ≤ s.unit_price) ∧
        enforceStep stats o.items = some (o.items ++ [newTopUpItem p s])) ∧
    (enforceStep stats o.items = none →
      (enforceOrder stats o).items = o.items ∧
        (enforceOrder stats o).meets_minimum = false) := by
  refine ⟨?_, ?_, ?_⟩
  · rintro ⟨j, hj, hje⟩
    rcases hc : selectCandidate stats o.items with - | k
    · exact absurd hje (selectCandidate_none hc j hj)
    · obtain ⟨hk, hke, hkmax⟩ := selectCandidate_some hc
      refine ⟨k, hk, hke, fun j hj hje => hkmax j hj hje, ?_⟩
      unfold enforceStep
      rw [hc]
  · intro hnoelig hex
    rcases hc : selectCandidate stats o.items with - | k
    · rcases hn : selectNew stats o.items with - | ⟨p, s⟩
      · obtain ⟨ps, hps, hnot, hpr, hfr⟩ := hex
        exact absurd (selectNew_none hn ps hps hnot hpr hfr) not_false
      · obtain ⟨hmem, hnot, hpr, hfr, hmax⟩ := selectNew_some hn
        refine ⟨p, s, hmem, hnot, hpr, hfr, rfl, fun qs a b c d => hmax qs a b c d, ?_⟩
        unfold enforceStep
        rw [hc, hn]
    · obtain ⟨hk, hke, -⟩ := selectCandidate_some hc
      exact absurd hke (hnoelig k hk)
  · intro hstep
    have hitems : enforceLoop stats (enforceFuel stats o.items + 1) o.items
        = o.items := by
      rw [enforceLoop_succ, if_pos ⟨h1, h2⟩, hstep]
    constructor
    · show enforceLoop stats (enforceFuel stats o.items + 1) o.items = o.items
      exact hitems
    · show decide (MIN_ORDER_TOTAL
        ≤ itemsTotal (enforceLoop stats (enforceFuel stats o.items + 1) o.items)) = false
      rw [hitems]
      exact decide_eq_false (not_le.2 h2)

lemma c4_eligible_concrete :
    eligible [("a", ⟨1, 7, none, 1, true, 5, 30, 0, 0, 3, 0, 1, 0, "estimated", false, 1⟩)]
      ⟨"a", 1, 30, 0, 5, 0, 0, false⟩ = true := by
  unfold eligible
  simp only [List.lookup, beq_self_eq_true, Bool.and_eq_true, decide_eq_true_eq]
  norm_num

lemma c4_eligible_concrete' :
    eligible [("a", ⟨1, 7, none, 1, true, 5, 30, 0, 0, 3, 0, 1, 0, "estimated", false, 1⟩)]
      ⟨"a", 1, 30, 30, 5, 0, 0, false⟩ = true := by
  unfold eligible
  simp only [List.lookup, beq_self_eq_true, Bool.and_eq_true, decide_eq_true_eq]
  norm_num

/-- Witness for **C4 (amended)**: a one-item order ($30, cap 5) below the $50
minimum; the increment case fires on that item. -/
theorem enforce_minimums_step_policy_witness :
    ∃ k, k < ([⟨"a", 1, 30, 30, 5, 0, 0, false⟩] : List Item).length ∧
      eligible [("a", ⟨1, 7, none, 1, true, 5, 30, 0, 0, 3, 0, 1, 0, "estimated", false, 1⟩)]
        (([⟨"a", 1, 30, 30, 5, 0, 0, false⟩] : List Item).getD k default) = true ∧
      (∀ j, j < ([⟨"a", 1, 30, 30, 5, 0, 0, false⟩] : List Item).length →
        eligible [("a", ⟨1, 7, none, 1, true, 5, 30, 0, 0, 3, 0, 1, 0, "estimated", false, 1⟩)]
          (([⟨"a", 1, 30, 30, 5, 0, 0, false⟩] : List Item).getD j default) = true →
        (([⟨"a", 1, 30, 30, 5, 0, 0, false⟩] : List Item).getD j default).unit_price
          ≤ (([⟨"a", 1, 30, 30, 5, 0, 0, false⟩] : List Item).getD k default).unit_price) ∧
      enforceStep
          [("a", ⟨1, 7, none, 1, true, 5, 30, 0, 0, 3, 0, 1, 0, "estimated", false, 1⟩)]
          [⟨"a", 1, 30, 30, 5, 0, 0, false⟩]
        = some (([⟨"a", 1, 30, 30, 5, 0, 0, false⟩] : List Item).set k
            (bumpItem (([⟨"a", 1, 30, 30, 5, 0, 0, false⟩] : List Item).getD k default))) :=
  (enforce_minimums_step_policy
      [("a", ⟨1, 7, none, 1, true, 5, 30, 0, 0, 3, 0, 1, 0, "estimated", false, 1⟩)]
      ⟨0, [⟨"a", 1, 30, 30, 5, 0, 0, false⟩], [], 30, 32, false, false⟩
      (by norm_num [itemsTotal])
      (by norm_num [itemsTotal, MIN_ORDER_TOTAL])).1
    ⟨0, by norm_num, c4_eligible_concrete'⟩

/-- **C4 counterexample.** The loop guard is `items_total > 0`, not "has at
least one item": a nonempty order whose single item has `total_price = 0`
(but positive unit price and spare cap, so the claim's conditions for an
increment hold) is left unchanged by the enforcer. -/
theorem c4_guard_counterexample :
    (([⟨"a", 1, 30, 0, 5, 0, 0, false⟩] : List Item) ≠ []) ∧
    itemsTotal [⟨"a", 1, 30, 0, 5, 0, 0, false⟩] < MIN_ORDER_TOTAL ∧
    eligible [("a", ⟨1, 7, none, 1, true, 5, 30, 0, 0, 3, 0, 1, 0, "estimated", false, 1⟩)]
      ⟨"a", 1, 30, 0, 5, 0, 0, false⟩ = true ∧
    (enforceOrder
        [("a", ⟨1, 7, none, 1, true, 5, 30, 0, 0, 3, 0, 1, 0, "estimated", false, 1⟩)]
        ⟨0, [⟨"a", 1, 30, 0, 5, 0, 0, false⟩], [], 0, 0, false, false⟩).items
      = [⟨"a", 1, 30, 0, 5, 0, 0, false⟩] := by
  refine ⟨by simp, by norm_num [itemsTotal, MIN_ORDER_TOTAL], c4_eligible_concrete, ?_⟩
  show enforceLoop _ _ _ = _
  apply enforceLoop_not_guard
  norm_num [itemsTotal]

/-!
## Order Consolidator (`consolidate_small_orders`) and the pipeline's
totals recomputation

`valid_orders` is a list of live references into `orders`; the scan is
modelled by acting on the order list through the indices of the orders that
had items when the function was entered.  The merge note's
`strftime('%Y-%m-%d')` date rendering is presentation-only and is modelled
by `toString` of the day number. -/

/-- Merge one item into a receiving item list: the first existing line for
the same product absorbs the quantity and has its total recomputed at the
receiver's unit price (Python's `next(...)`); otherwise the item is
appended. -/
def mergeOneItem (it : Item) : List Item → List Item
  | [] => [it]
  | x :: xs =>
      if x.product = it.product then
        { x with qty := x.qty + it.qty, total_price := (x.qty + it.qty) * x.unit_price }
          :: xs
      else x :: mergeOneItem it xs

/-- Merge all items of `src` into `recv`, appending the explanatory note. -/
def mergeOrders (src recv : Order) : Order :=
  { recv with
    items := src.items.foldl (fun acc it => mergeOneItem it acc) recv.items
    notes := recv.notes ++ ["Merged from " ++ toString src.date] }

/-- The source order after its items have been moved (`skipped = True`). -/
def emptySrc (o : Order) : Order :=
  { o with items := [], items_total := 0, total_with_delivery := 0, skipped := true }

/-- The `while i < len(valid_orders) - 1` scan: each under-minimum valid
order is merged into the next valid order (both updated in the shared
order list, as the Python dicts are mutated through references). -/
def consolidateGo : List Order → List ℕ → List Order
  | os, i :: j :: rest =>
      let oi := os.getD i default
      if oi.meets_minimum then consolidateGo os (j :: rest)
      else
        let oj := os.getD j default
        consolidateGo ((os.set j (mergeOrders oi oj)).set i (emptySrc oi)) (j :: rest)
  | os, _ => os

/-- Positions of `valid_orders = [o for o in orders if o["items"]]`. -/
def validIdx (orders : List Order) : List ℕ :=
  (List.range orders.length).filter
    (fun k => !(orders.getD k default).items.isEmpty)

/-- `consolidate_small_orders(orders)` from the source. -/
def consolidate_small_orders (orders : List Order) : List Order :=
  consolidateGo orders (validIdx orders)

/-- The per-order totals recomputation performed by
`predict_two_dollar_delivery_orders` right after consolidation. -/
def recompute_totals (orders : List Order) : List Order :=
  orders.map fun o =>
    if o.skipped then o
    else
      let t := itemsTotal o.items
      { o with
        items_total := t
        total_with_delivery := if 0 < t then t + DELIVERY_FEE else 0
        meets_minimum := decide (MIN_ORDER_TOTAL ≤ t) }

/-- The distinct products appearing anywhere in a plan. -/
def planProducts (orders : List Order) : Finset String :=
  ((orders.flatMap (·.items)).map (·.product)).toFinset

lemma mem_of_getLastQ {l : List ℕ} {L : ℕ} (h : l.getLast? = some L) : L ∈ l := by
  induction l with
  | nil => simp at h
  | cons a tl ih =>
      cases tl with
      | nil =>
          simp only [List.getLast?_singleton, Option.some.injEq] at h
          simp [h]
      | cons b rest =>
          rw [List.getLast?_cons_cons] at h
          exact List.mem_cons_of_mem _ (ih h)

lemma getLast_max {idxs : List ℕ} {L : ℕ} (hp : idxs.Pairwise (· < ·))
    (hL : idxs.getLast? = some L) : ∀ k ∈ idxs, k ≤ L := by
  induction idxs with
  | nil => simp at hL
  | cons i tl ih =>
      intro k hk
      cases tl with
      | nil =>
          simp only [List.getLast?_singleton, Option.some.injEq] at hL
          simp only [List.mem_singleton] at hk
          omega
      | cons j rest =>
          rw [List.getLast?_cons_cons] at hL
          have hLmem : L ∈ j :: rest := mem_of_getLastQ hL
          rcases List.mem_cons.1 hk with rfl | hk'
          · have := (List.pairwise_cons.1 hp).1 L hLmem
            omega
          · exact ih (List.pairwise_cons.1 hp).2 hL k hk'

lemma getD_set_ne {l : List Order} {i j : ℕ} (h : i ≠ j) (x : Order) :
    (l.set i x).getD j default = l.getD j default := by
  induction l generalizing i j with
  | nil => simp
  | cons a as ih =>
      cases i with
      | zero =>
          cases j with
          | zero => exact absurd rfl h
          | succ j' => simp [List.set]
      | succ i' =>
          cases j with
          | zero => simp [List.set]
          | succ j' =>
              simp only [List.set, List.getD_cons_succ]
              exact ih (fun he => h (congrArg Nat.succ he))

lemma getD_set_self {l : List Order} {j : ℕ} (h : j < l.length) (x : Order) :
    (l.set j x).getD j default = x := by
  induction l generalizing j with
  | nil => simp at h
  | cons a as ih =>
      cases j with
      | zero => simp [List.set]
      | succ j' =>
          simp only [List.set, List.getD_cons_succ]
          exact ih (Nat.lt_of_succ_lt_succ h)

lemma getD_mem {l : List Order} {k : ℕ} (h : k < l.length) :
    l.getD k default ∈ l := by
  induction l generalizing k with
  | nil => simp at h
  | cons a as ih =>
      cases k with
      | zero => simp
      | succ k' =>
          simp only [List.getD_cons_succ]
          exact List.mem_cons_of_mem _ (ih (Nat.lt_of_succ_lt_succ h))

lemma mergeOneItem_products_sub {it : Item} {recv : List Item} :
    ∀ q ∈ recv.map (·.product), q ∈ (mergeOneItem it recv).map (·.product) := by
  induction recv with
  | nil => simp
  | cons x xs ih =>
      intro q hq
      unfold mergeOneItem
      split
      · simpa using hq
      · rcases List.mem_cons.1 hq with rfl | hq'
        · simp
        · simp only [List.map_cons, List.mem_cons]
          exact Or.inr (ih q hq')

lemma mergeFold_products_sub {src recv : List Item} :
    ∀ q ∈ recv.map (·.product),
      q ∈ (src.foldl (fun acc it => mergeOneItem it acc) recv).map (·.product) := by
  induction src generalizing recv with
  | nil => simp
  | cons it its ih =>
      intro q hq
      exact ih _ (mergeOneItem_products_sub q hq)

lemma consolidateGo_cons_cons (os : List Order) (i j : ℕ) (rest : List ℕ) :
    consolidateGo os (i :: j :: rest) =
      if (os.getD i default).meets_minimum then consolidateGo os (j :: rest)
      else consolidateGo
        ((os.set j (mergeOrders (os.getD i default) (os.getD j default))).set i
          (emptySrc (os.getD i default))) (j :: rest) := rfl

lemma consolidateGo_length (idxs : List ℕ) : ∀ os : List Order,
    (consolidateGo os idxs).length = os.length := by
  induction idxs with
  | nil => intro os; rfl
  | cons i tl ih =>
      intro os
      cases tl with
      | nil => rfl
      | cons j rest =>
          rw [consolidateGo_cons_cons]
          split
          · exact ih os
          · rw [ih]
            simp

lemma consolidateGo_last {L : ℕ} : ∀ (idxs : List ℕ) (os : List Order),
    idxs.Pairwise (· < ·) → idxs.getLast? = some L → (∀ k ∈ idxs, k < os.length) →
    ((consolidateGo os idxs).getD L default).skipped = (os.getD L default).skipped ∧
    ∀ q ∈ (os.getD L default).items.map (·.product),
      q ∈ ((consolidateGo os idxs).getD L default).items.map (·.product) := by
  intro idxs
  induction idxs with
  | nil => intro os _ hL; simp at hL
  | cons i tl ih =>
      intro os hp hL hbound
      cases tl with
      | nil => exact ⟨rfl, fun q hq => hq⟩
      | cons j rest =>
          rw [List.getLast?_cons_cons] at hL
          have hLmem : L ∈ j :: rest := mem_of_getLastQ hL
          have hiL : i < L := (List.pairwise_cons.1 hp).1 L hLmem
          have hptl := (List.pairwise_cons.1 hp).2
          have hbtl : ∀ k ∈ j :: rest, k < os.length :=
            fun k hk => hbound k (List.mem_cons_of_mem _ hk)
          rw [consolidateGo_cons_cons]
          by_cases hm : (os.getD i default).meets_minimum
          · rw [if_pos hm]
            exact ih os hptl hL hbtl
          · rw [if_neg hm]
            set oi := os.getD i default
            set oj := os.getD j default
            set os' := (os.set j (mergeOrders oi oj)).set i (emptySrc oi) with hos'
            have hlen' : ∀ k ∈ j :: rest, k < os'.length := by
              intro k hk
              rw [hos']
              simpa using hbtl k hk
            have hgetL : os'.getD L default
                = if j = L then mergeOrders oi oj else os.getD L default := by
              rw [hos', getD_set_ne (by omega)]
              by_cases hjL : j = L
              · subst hjL
                rw [if_pos rfl]
                exact getD_set_self (hbound j (by simp)) _
              · rw [if_neg hjL, getD_set_ne hjL]
            obtain ⟨hsk, hprod⟩ := ih os' hptl hL hlen'
            constructor
            · rw [hsk, hgetL]
              by_cases hjL : j = L
              · subst hjL
                rw [if_pos rfl]
                rfl
              · rw [if_neg hjL]
            · intro q hq
              apply hprod
              rw [hgetL]
              by_cases hjL : j = L
              · subst hjL
                rw [if_pos rfl]
                exact mergeFold_products_sub q hq
              · rw [if_neg hjL]
                exact hq

/-- **C10.** The chronologically last order that contains items is never
emptied or marked `skipped` by the Order Consolidator: its `skipped` flag
stays unset, every product it held is still present (quantities can only
grow as earlier orders merge into it), and by the date-sortedness of the
plan it is indeed the latest-dated order with items. -/
theorem consolidate_preserves_last (orders : List Order) (L : ℕ)
    (hsorted : orders.Pairwise (fun a b => a.date < b.date))
    (hskip : ∀ o ∈ orders, o.skipped = false)
    (hL : (validIdx orders).getLast? = some L) :
    ((consolidate_small_orders orders).getD L default).skipped = false ∧
    ((consolidate_small_orders orders).getD L default).items ≠ [] ∧
    (∀ q ∈ (orders.getD L default).items.map (·.product),
      q ∈ ((consolidate_small_orders orders).getD L default).items.map (·.product)) ∧
    (∀ k ∈ validIdx orders, (orders.getD k default).date ≤ (orders.getD L default).date) := by
  unfold consolidate_small_orders
  have hpair : (validIdx orders).Pairwise (· < ·) :=
    (List.pairwise_lt_range _).filter _
  have hbound : ∀ k ∈ validIdx orders, k < orders.length := by
    intro k hk
    have := (List.mem_filter.1 hk).1
    exact List.mem_range.1 this
  have hLmem : L ∈ validIdx orders := mem_of_getLastQ hL
  have hLlt : L < orders.length := hbound L hLmem
  have hLne : (orders.getD L default).items ≠ [] := by
    have := (List.mem_filter.1 hLmem).2
    simpa using this
  obtain ⟨hsk, hprod⟩ := consolidateGo_last (validIdx orders) orders hpair hL hbound
  refine ⟨?_, ?_, fun q hq => hprod q hq, ?_⟩
  · rw [hsk]
    exact hskip _ (getD_mem hLlt)
  · rcases hx : (orders.getD L default).items with - | ⟨x, xs⟩
    · exact absurd hx hLne
    · have hqx : x.product ∈ (orders.getD L default).items.map (·.product) := by
        rw [hx]
        simp
      have := hprod x.product hqx
      intro hempty
      rw [hempty] at this
      simp at this
  · intro k hk
    have hkL : k ≤ L := getLast_max hpair hL k hk
    rcases Nat.lt_or_ge k L with hlt | hge
    · have := List.pairwise_iff_getElem.1 hsorted k L (hbound k hk) hLlt hlt
      rw [List.getD_eq_getElem _ _ (hbound k hk), List.getD_eq_getElem _ _ hLlt]
      exact le_of_lt this
    · have : k = L := by omega
      subst this
      exact le_refl _

/-- Witness for **C10**: a $1 under-minimum order followed by a $60 order;
the later order keeps its items and is never skipped. -/
theorem consolidate_preserves_last_witness :
    ((consolidate_small_orders
        [⟨0, [⟨"a", 1, 1, 1, 5, 0, 0, false⟩], [], 1, 3, false, false⟩,
         ⟨1, [⟨"b", 1, 60, 60, 5, 0, 0, false⟩], [], 60, 62, true, false⟩]).getD 1
          default).skipped = false ∧
    ((consolidate_small_orders
        [⟨0, [⟨"a", 1, 1, 1, 5, 0, 0, false⟩], [], 1, 3, false, false⟩,
         ⟨1, [⟨"b", 1, 60, 60, 5, 0, 0, false⟩], [], 60, 62, true, false⟩]).getD 1
          default).items ≠ [] := by
  have h := consolidate_preserves_last
    [⟨0, [⟨"a", 1, 1, 1, 5, 0, 0, false⟩], [], 1, 3, false, false⟩,
     ⟨1, [⟨"b", 1, 60, 60, 5, 0, 0, false⟩], [], 60, 62, true, false⟩] 1
    (by simp [List.pairwise_cons])
    (by
      intro o ho
      rcases List.mem_cons.1 ho with rfl | ho'
      · rfl
      · rcases List.mem_cons.1 ho' with rfl | ho''
        · rfl
        · simp at ho'')
    (by decide)
  exact ⟨h.1, h.2.1⟩

/-!
### Conservation under consolidation (C3)

The pipeline guarantees, for every item it builds: the stored
`total_price` is `qty * unit_price`, and all items of one product share
that product's single `unit_price` (both builder and enforcer price items
from the same `ProductStats` entry).  Merging sums quantities and recomputes
the receiver's line at the receiver's unit price, so value is conserved
exactly under those invariants — and not otherwise (see the
counterexample). -/

/-- Pipeline item well-formedness: stored totals are consistent and each
product has a single unit price, given by `price`. -/
def ItemsWF (price : String → ℚ) (os : List Order) : Prop :=
  ∀ o ∈ os, ∀ x ∈ o.items,
    x.total_price = x.qty * x.unit_price ∧ x.unit_price = price x.product

/-- The total item value of a whole plan. -/
def sumItems (os : List Order) : ℚ := (os.map (fun o => itemsTotal o.items)).sum

lemma itemsTotal_nil : itemsTotal [] = 0 := rfl

lemma itemsTotal_cons (x : Item) (xs : List Item) :
    itemsTotal (x :: xs) = x.total_price + itemsTotal xs := by
  simp [itemsTotal]

lemma mergeOneItem_spec (price : String → ℚ) (it : Item) (recv : List Item)
    (hit : it.total_price = it.qty * it.unit_price ∧ it.unit_price = price it.product)
    (hrecv : ∀ x ∈ recv,
      x.total_price = x.qty * x.unit_price ∧ x.unit_price = price x.product) :
    itemsTotal (mergeOneItem it recv) = itemsTotal recv + it.total_price ∧
    ∀ x ∈ mergeOneItem it recv,
      x.total_price = x.qty * x.unit_price ∧ x.unit_price = price x.product := by
  induction recv with
  | nil =>
      refine ⟨by simp [mergeOneItem, itemsTotal], ?_⟩
      intro x hx
      simp only [mergeOneItem, List.mem_singleton] at hx
      subst hx
      exact hit
  | cons y ys ih =>
      have hy := hrecv y (List.mem_cons_self _ _)
      have hys : ∀ x ∈ ys,
          x.total_price = x.qty * x.unit_price ∧ x.unit_price = price x.product :=
        fun x hx => hrecv x (List.mem_cons_of_mem _ hx)
      unfold mergeOneItem
      split
      · rename_i hprod
        have hu : y.unit_price = it.unit_price := by
          rw [hy.2, hit.2, hprod]
        constructor
        · rw [itemsTotal_cons, itemsTotal_cons]
          show (y.qty + it.qty) * y.unit_price + itemsTotal ys = _
          rw [hy.1, hit.1, hu]
          ring
        · intro x hx
          rcases List.mem_cons.1 hx with rfl | hx'
          · exact ⟨rfl, hy.2⟩
          · exact hys x hx'
      · obtain ⟨ihsum, ihwf⟩ := ih hys
        constructor
        · rw [itemsTotal_cons, itemsTotal_cons, ihsum]
          ring
        · intro x hx
          rcases List.mem_cons.1 hx with rfl | hx'
          · exact hy
          · exact ihwf x hx'

lemma mergeFold_spec (price : String → ℚ) (src : List Item) : ∀ recv : List Item,
    (∀ x ∈ src,
      x.total_price = x.qty * x.unit_price ∧ x.unit_price = price x.product) →
    (∀ x ∈ recv,
      x.total_price = x.qty * x.unit_price ∧ x.unit_price = price x.product) →
    itemsTotal (src.foldl (fun acc it => mergeOneItem it acc) recv)
      = itemsTotal recv + itemsTotal src ∧
    ∀ x ∈ src.foldl (fun acc it => mergeOneItem it acc) recv,
      x.total_price = x.qty * x.unit_price ∧ x.unit_price = price x.product := by
  induction src with
  | nil =>
      intro recv _ hrecv
      exact ⟨by simp [itemsTotal], hrecv⟩
  | cons it its ih =>
      intro recv hsrc hrecv
      have hit := hsrc it (List.mem_cons_self _ _)
      have hits : ∀ x ∈ its,
          x.total_price = x.qty * x.unit_price ∧ x.unit_price = price x.product :=
        fun x hx => hsrc x (List.mem_cons_of_mem _ hx)
      obtain ⟨h1, h2⟩ := mergeOneItem_spec price it recv hit hrecv
      obtain ⟨h3, h4⟩ := ih (mergeOneItem it recv) hits h2
      refine ⟨?_, h4⟩
      show itemsTotal (its.foldl _ (mergeOneItem it recv)) = _
      rw [h3, h1, itemsTotal_cons]
      ring

lemma mergeOneItem_products_sup {it : Item} {recv : List Item} :
    ∀ q ∈ (mergeOneItem it recv).map (·.product),
      q ∈ recv.map (·.product) ∨ q = it.product := by
  induction recv with
  | nil =>
      intro q hq
      simp only [mergeOneItem, List.map_cons, List.map_nil, List.mem_singleton] at hq
      exact Or.inr hq
  | cons y ys ih =>
      intro q hq
      unfold mergeOneItem at hq
      split at hq
      · simp only [List.map_cons, List.mem_cons] at hq ⊢
        tauto
      · simp only [List.map_cons, List.mem_cons] at hq ⊢
        rcases hq with rfl | hq'
        · tauto
        · rcases ih q hq' with h | h
          · tauto
          · tauto

lemma mergeFold_products_sup {src : List Item} : ∀ {recv : List Item},
    ∀ q ∈ (src.foldl (fun acc it => mergeOneItem it acc) recv).map (·.product),
      q ∈ recv.map (·.product) ∨ q ∈ src.map (·.product) := by
  induction src with
  | nil =>
      intro recv q hq
      exact Or.inl hq
  | cons it its ih =>
      intro recv q hq
      rcases ih q hq with h | h
      · rcases mergeOneItem_products_sup q h with h' | h'
        · exact Or.inl h'
        · simp [h']
      · simp only [List.map_cons, List.mem_cons]
        tauto

lemma sumItems_set {os : List Order} {k : ℕ} (hk : k < os.length) (o' : Order) :
    sumItems (os.set k o') + itemsTotal ((os.getD k default).items)
      = sumItems os + itemsTotal o'.items := by
  induction os generalizing k with
  | nil => simp at hk
  | cons a as ih =>
      cases k with
      | zero =>
          simp only [List.set, sumItems, List.map_cons, List.sum_cons, List.getD_cons_zero]
          ring
      | succ k' =>
          simp only [List.set, sumItems, List.map_cons, List.sum_cons, List.getD_cons_succ]
          have h := ih (Nat.lt_of_succ_lt_succ hk)
          unfold sumItems at h
          linarith

lemma consolidateGo_conserve (price : String → ℚ) :
    ∀ (idxs : List ℕ) (os : List Order),
      idxs.Pairwise (· < ·) → (∀ k ∈ idxs, k < os.length) →
      ItemsWF price os →
      (∀ o ∈ os, o.skipped = true → o.items = []) →
      (∀ k ∈ idxs, (os.getD k default).skipped = false) →
      sumItems (consolidateGo os idxs) = sumItems os ∧
      ItemsWF price (consolidateGo os idxs) ∧
      (∀ o ∈ consolidateGo os idxs, o.skipped = true → o.items = []) ∧
      (∀ q ∈ ((consolidateGo os idxs).flatMap (·.items)).map (·.product),
        q ∈ (os.flatMap (·.items)).map (·.product)) := by
  intro idxs
  induction idxs with
  | nil =>
      intro os _ _ hWF hSK _
      exact ⟨rfl, hWF, hSK, fun q hq => hq⟩
  | cons i tl ih =>
      intro os hp hb hWF hSK hun
      cases tl with
      | nil => exact ⟨rfl, hWF, hSK, fun q hq => hq⟩
      | cons j rest =>
          have hij : i < j := (List.pairwise_cons.1 hp).1 j (by simp)
          have hi : i < os.length := hb i (by simp)
          have hj : j < os.length := hb j (by simp)
          have hptl := (List.pairwise_cons.1 hp).2
          have hbtl : ∀ k ∈ j :: rest, k < os.length :=
            fun k hk => hb k (List.mem_cons_of_mem _ hk)
          have huntl : ∀ k ∈ j :: rest, (os.getD k default).skipped = false :=
            fun k hk => hun k (List.mem_cons_of_mem _ hk)
          rw [consolidateGo_cons_cons]
          by_cases hm : (os.getD i default).meets_minimum
          · rw [if_pos hm]
            exact ih os hptl hbtl hWF hSK huntl
          · rw [if_neg hm]
            have hoimem : os.getD i default ∈ os := getD_mem hi
            have hojmem : os.getD j default ∈ os := getD_mem hj
            have hoiWF := hWF _ hoimem
            have hojWF := hWF _ hojmem
            obtain ⟨hMsum, hMwf⟩ := mergeFold_spec price (os.getD i default).items
              (os.getD j default).items hoiWF hojWF
            have hMitems : (mergeOrders (os.getD i default) (os.getD j default)).items
                = (os.getD i default).items.foldl (fun acc it => mergeOneItem it acc)
                    (os.getD j default).items := rfl
            have hMsk : (mergeOrders (os.getD i default) (os.getD j default)).skipped
                = (os.getD j default).skipped := rfl
            -- the updated list
            have hlen1 : j < (os.set j
                (mergeOrders (os.getD i default) (os.getD j default))).length := by
              simpa using hj
            have hgetDi : (os.set j (mergeOrders (os.getD i default) (os.getD j default))).getD
                i default = os.getD i default := getD_set_ne (by omega) _
            have hlen' : ∀ k ∈ j :: rest, k < ((os.set j
                (mergeOrders (os.getD i default) (os.getD j default))).set i
                  (emptySrc (os.getD i default))).length := by
              intro k hk
              simpa using hbtl k hk
            -- sum conservation for one step
            have h1 := sumItems_set hj
              (mergeOrders (os.getD i default) (os.getD j default))
            have h2 := @sumItems_set
              (os.set j (mergeOrders (os.getD i default) (os.getD j default))) i
              (by simpa using hi) (emptySrc (os.getD i default))
            rw [hgetDi] at h2
            have hsum' : sumItems ((os.set j
                (mergeOrders (os.getD i default) (os.getD j default))).set i
                  (emptySrc (os.getD i default))) = sumItems os := by
              have hE : itemsTotal (emptySrc (os.getD i default)).items = 0 := rfl
              rw [hMitems] at *
              rw [hMsum] at h1
              rw [hE] at h2
              linarith
            -- invariants for the updated list
            have hWF' : ItemsWF price ((os.set j
                (mergeOrders (os.getD i default) (os.getD j default))).set i
                  (emptySrc (os.getD i default))) := by
              intro o ho x hx
              rcases List.mem_or_eq_of_mem_set ho with ho' | rfl
              · rcases List.mem_or_eq_of_mem_set ho' with ho'' | rfl
                · exact hWF o ho'' x hx
                · rw [hMitems] at hx
                  exact hMwf x hx
              · simp [emptySrc] at hx
            have hSK' : ∀ o ∈ ((os.set j
                (mergeOrders (os.getD i default) (os.getD j default))).set i
                  (emptySrc (os.getD i default))), o.skipped = true → o.items = [] := by
              intro o ho hsk
              rcases List.mem_or_eq_of_mem_set ho with ho' | rfl
              · rcases List.mem_or_eq_of_mem_set ho' with ho'' | rfl
                · exact hSK o ho'' hsk
                · rw [hMsk] at hsk
                  rw [huntl j (by simp)] at hsk
                  simp at hsk
              · rfl
            have hun' : ∀ k ∈ j :: rest, (((os.set j
                (mergeOrders (os.getD i default) (os.getD j default))).set i
                  (emptySrc (os.getD i default))).getD k default).skipped = false := by
              intro k hk
              have hik : i ≠ k := by
                have := (List.pairwise_cons.1 hp).1 k hk
                omega
              rw [getD_set_ne hik]
              by_cases hjk : j = k
              · subst hjk
                rw [getD_set_self hj, hMsk]
                exact huntl j (by simp)
              · rw [getD_set_ne hjk]
                exact huntl k hk
            obtain ⟨ihsum, ihWF, ihSK, ihprod⟩ := ih _ hptl hlen' hWF' hSK' hun'
            refine ⟨by rw [ihsum, hsum'], ihWF, ihSK, ?_⟩
            intro q hq
            have hq' := ihprod q hq
            -- products of the one-step-updated list are products of `os`
            simp only [List.mem_map, List.mem_flatMap] at hq' ⊢
            obtain ⟨x, ⟨o, ho, hxo⟩, hxq⟩ := hq'
            rcases List.mem_or_eq_of_mem_set ho with ho' | rfl
            · rcases List.mem_or_eq_of_mem_set ho' with ho'' | rfl
              · exact ⟨x, ⟨o, ho'', hxo⟩, hxq⟩
              · rw [hMitems] at hxo
                have hx' : x.product ∈ ((os.getD i default).items.foldl
                    (fun acc it => mergeOneItem it acc)
                    (os.getD j default).items).map (·.product) :=
                  List.mem_map.2 ⟨x, hxo, rfl⟩
                rcases mergeFold_products_sup _ hx' with h | h
                · obtain ⟨y, hy, hyq⟩ := List.mem_map.1 h
                  exact ⟨y, ⟨os.getD j default, hojmem, hy⟩, hyq.trans hxq⟩
                · obtain ⟨y, hy, hyq⟩ := List.mem_map.1 h
                  exact ⟨y, ⟨os.getD i default, hoimem, hy⟩, hyq.trans hxq⟩
            · simp [emptySrc] at hxo

lemma recompute_flatMap (os : List Order) :
    (recompute_totals os).flatMap (·.items) = os.flatMap (·.items) := by
  induction os with
  | nil => rfl
  | cons o ot ih =>
      show ((if o.skipped then o else _) :: recompute_totals ot).flatMap (·.items) = _
      rw [List.flatMap_cons, List.flatMap_cons, ih]
      split
      · rfl
      · rfl

lemma recompute_sum_filter (os : List Order) :
    (((recompute_totals os).filter (fun o => !o.skipped)).map (·.items_total)).sum
      = ((os.filter (fun o => !o.skipped)).map (fun o => itemsTotal o.items)).sum := by
  induction os with
  | nil => rfl
  | cons o ot ih =>
      show ((((if o.skipped then o else _) :: recompute_totals ot).filter
        (fun o => !o.skipped)).map (·.items_total)).sum = _
      by_cases hs : o.skipped
      · rw [if_pos hs, List.filter_cons_of_neg (by simp [hs]),
          List.filter_cons_of_neg (by simp [hs])]
        exact ih
      · rw [if_neg hs, List.filter_cons_of_pos (by simp [hs]),
          List.filter_cons_of_pos (by simp [hs])]
        simp only [List.map_cons, List.sum_cons]
        rw [ih]

lemma sum_filter_skipped (os : List Order)
    (hSK : ∀ o ∈ os, o.skipped = true → o.items = []) :
    ((os.filter (fun o => !o.skipped)).map (fun o => itemsTotal o.items)).sum
      = sumItems os := by
  induction os with
  | nil => rfl
  | cons o ot ih =>
      have ihx := ih (fun o ho => hSK o (List.mem_cons_of_mem _ ho))
      by_cases hs : o.skipped
      · rw [List.filter_cons_of_neg (by simp [hs])]
        have hempty : o.items = [] := hSK o (List.mem_cons_self _ _) hs
        unfold sumItems
        simp only [List.map_cons, List.sum_cons, hempty, itemsTotal_nil]
        unfold sumItems at ihx
        linarith
      · rw [List.filter_cons_of_pos (by simp [hs])]
        unfold sumItems
        simp only [List.map_cons, List.sum_cons]
        unfold sumItems at ihx
        linarith

lemma sumItems_eq_stored (os : List Order)
    (hT : ∀ o ∈ os, o.items_total = itemsTotal o.items) :
    (os.map (·.items_total)).sum = sumItems os := by
  induction os with
  | nil => rfl
  | cons o ot ih =>
      unfold sumItems
      simp only [List.map_cons, List.sum_cons]
      rw [hT o (List.mem_cons_self _ _)]
      have ihx := ih (fun o ho => hT o (List.mem_cons_of_mem _ ho))
      unfold sumItems at ihx
      linarith

/-- **C3 (amended).** For every order list satisfying the pipeline's item
invariants — each stored `items_total` is the sum of its items'
`total_price`, each item's `total_price` is `qty * unit_price`, all items of
one product share that product's unit price, and no order is pre-marked
`skipped` — the Order Consolidator followed by the pipeline's totals
recomputation never increases the number of distinct products in the plan,
and the sum of `items_total` over all non-skipped orders afterwards equals
the sum of `items_total` over all orders before.  (Without the shared-unit-
price invariant the sum is not conserved: merging recomputes the line at the
receiver's unit price; see the counterexample.) -/
theorem consolidate_conserves (orders : List Order) (price : String → ℚ)
    (hWU : ItemsWF price orders)
    (hT : ∀ o ∈ orders, o.items_total = itemsTotal o.items)
    (hskip : ∀ o ∈ orders, o.skipped = false) :
    (planProducts (recompute_totals (consolidate_small_orders orders))).card
        ≤ (planProducts orders).card ∧
    (((recompute_totals (consolidate_small_orders orders)).filter
        (fun o => !o.skipped)).map (·.items_total)).sum
      = (orders.map (·.items_total)).sum := by
  have hpair : (validIdx orders).Pairwise (· < ·) :=
    (List.pairwise_lt_range _).filter _
  have hbound : ∀ k ∈ validIdx orders, k < orders.length := by
    intro k hk
    exact List.mem_range.1 (List.mem_filter.1 hk).1
  have hSK : ∀ o ∈ orders, o.skipped = true → o.items = [] := by
    intro o ho hsk
    rw [hskip o ho] at hsk
    simp at hsk
  have hun : ∀ k ∈ validIdx orders, (orders.getD k default).skipped = false := by
    intro k hk
    exact hskip _ (getD_mem (hbound k hk))
  obtain ⟨hsum, -, hSK', hprod⟩ :=
    consolidateGo_conserve price (validIdx orders) orders hpair hbound hWU hSK hun
  constructor
  · apply Finset.card_le_card
    intro q hq
    simp only [planProducts, List.mem_toFinset] at hq ⊢
    rw [recompute_flatMap] at hq
    exact hprod q hq
  · rw [recompute_sum_filter]
    unfold consolidate_small_orders
    rw [sum_filter_skipped _ hSK', hsum, sumItems_eq_stored orders hT]

/-- Witness for **C3 (amended)**: a $20 under-minimum order followed by a
$60 order, with consistent per-product prices; value is conserved. -/
theorem consolidate_conserves_witness :
    (planProducts (recompute_totals (consolidate_small_orders
        [⟨0, [⟨"a", 1, 20, 20, 5, 0, 0, false⟩], [], 20, 22, false, false⟩,
         ⟨1, [⟨"b", 1, 60, 60, 5, 0, 0, false⟩], [], 60, 62, true, false⟩]))).card
      ≤ (planProducts
        [⟨0, [⟨"a", 1, 20, 20, 5, 0, 0, false⟩], [], 20, 22, false, false⟩,
         ⟨1, [⟨"b", 1, 60, 60, 5, 0, 0, false⟩], [], 60, 62, true, false⟩]).card ∧
    (((recompute_totals (consolidate_small_orders
        [⟨0, [⟨"a", 1, 20, 20, 5, 0, 0, false⟩], [], 20, 22, false, false⟩,
         ⟨1, [⟨"b", 1, 60, 60, 5, 0, 0, false⟩], [], 60, 62, true, false⟩])).filter
        (fun o => !o.skipped)).map (·.items_total)).sum
      = (([⟨0, [⟨"a", 1, 20, 20, 5, 0, 0, false⟩], [], 20, 22, false, false⟩,
          ⟨1, [⟨"b", 1, 60, 60, 5, 0, 0, false⟩], [], 60, 62, true, false⟩]
            : List Order).map (·.items_total)).sum := by
  apply consolidate_conserves _ (fun q => if q = "a" then 20 else 60)
  · intro o ho x hx
    rcases List.mem_cons.1 ho with rfl | ho'
    · simp only [List.mem_singleton] at hx
      subst hx
      refine ⟨by norm_num, by simp⟩
    · rcases List.mem_cons.1 ho' with rfl | ho''
      · simp only [List.mem_singleton] at hx
        subst hx
        refine ⟨by norm_num, by simp⟩
      · simp at ho''
  · intro o ho
    rcases List.mem_cons.1 ho with rfl | ho'
    · norm_num [itemsTotal]
    · rcases List.mem_cons.1 ho' with rfl | ho''
      · norm_num [itemsTotal]
      · simp at ho''
  · intro o ho
    rcases List.mem_cons.1 ho with rfl | ho'
    · rfl
    · rcases List.mem_cons.1 ho' with rfl | ho''
      · rfl
      · simp at ho''

/-- **C3 counterexample.** Two orders with the same product at different
unit prices ($1 and $2): the under-minimum $1 line merges into the $2 line,
whose total is recomputed as `2 * $2 = $4`, so the non-skipped sum after
consolidation is $4 while the sum before was $3 — the claim fails for
arbitrary order lists (it needs the pipeline's shared-unit-price
invariant). -/
theorem c3_counterexample :
    (((recompute_totals (consolidate_small_orders
        [⟨0, [⟨"a", 1, 1, 1, 5, 0, 0, false⟩], [], 1, 3, false, false⟩,
         ⟨1, [⟨"a", 1, 2, 2, 5, 0, 0, false⟩], [], 2, 4, true, false⟩])).filter
        (fun o => !o.skipped)).map (·.items_total)).sum = 4 ∧
    (([⟨0, [⟨"a", 1, 1, 1, 5, 0, 0, false⟩], [], 1, 3, false, false⟩,
       ⟨1, [⟨"a", 1, 2, 2, 5, 0, 0, false⟩], [], 2, 4, true, false⟩]
        : List Order).map (·.items_total)).sum = 3 ∧
    (4 : ℚ) ≠ 3 := by
  have h0 : validIdx
      [⟨0, [⟨"a", 1, 1, 1, 5, 0, 0, false⟩], [], 1, 3, false, false⟩,
       ⟨1, [⟨"a", 1, 2, 2, 5, 0, 0, false⟩], [], 2, 4, true, false⟩] = [0, 1] := by
    decide
  have h1 : consolidate_small_orders
      [⟨0, [⟨"a", 1, 1, 1, 5, 0, 0, false⟩], [], 1, 3, false, false⟩,
       ⟨1, [⟨"a", 1, 2, 2, 5, 0, 0, false⟩], [], 2, 4, true, false⟩]
      = [emptySrc ⟨0, [⟨"a", 1, 1, 1, 5, 0, 0, false⟩], [], 1, 3, false, false⟩,
         mergeOrders ⟨0, [⟨"a", 1, 1, 1, 5, 0, 0, false⟩], [], 1, 3, false, false⟩
           ⟨1, [⟨"a", 1, 2, 2, 5, 0, 0, false⟩], [], 2, 4, true, false⟩] := by
    unfold consolidate_small_orders
    rw [h0, consolidateGo_cons_cons, if_neg (by decide)]
    rfl
  have h2 : itemsTotal (mergeOrders
      ⟨0, [⟨"a", 1, 1, 1, 5, 0, 0, false⟩], [], 1, 3, false, false⟩
      ⟨1, [⟨"a", 1, 2, 2, 5, 0, 0, false⟩], [], 2, 4, true, false⟩).items = 4 := by
    show itemsTotal (mergeOneItem ⟨"a", 1, 1, 1, 5, 0, 0, false⟩
      [⟨"a", 1, 2, 2, 5, 0, 0, false⟩]) = 4
    unfold mergeOneItem
    rw [if_pos rfl]
    norm_num [itemsTotal]
  refine ⟨?_, by norm_num, by norm_num⟩
  rw [h1]
  simp only [recompute_totals, List.map_cons, List.map_nil]
  rw [if_pos (by decide : (emptySrc
      ⟨0, [⟨"a", 1, 1, 1, 5, 0, 0, false⟩], [], 1, 3, false, false⟩).skipped = true),
    if_neg (by decide : ¬((mergeOrders
      ⟨0, [⟨"a", 1, 1, 1, 5, 0, 0, false⟩], [], 1, 3, false, false⟩
      ⟨1, [⟨"a", 1, 2, 2, 5, 0, 0, false⟩], [], 2, 4, true, false⟩).skipped = true))]
  rw [List.filter_cons_of_neg (by decide), List.filter_cons_of_pos (by decide)]
  simp only [List.filter_nil, List.map_cons, List.map_nil, List.sum_cons, List.sum_nil]
  rw [h2]
  ring

end Predict
